import Mathlib

/-!
# ZLToolKit `Util/logger.h`: a shallow embedding and its verified properties

The embedding follows `src/Util/logger.h`.

* C++ objects held through `shared_ptr` live at addresses (`Nat`); the channel heap
  `Mem.heap` maps an address to the state of the channel object stored there and
  `Sys._pending` maps the address of an `AsyncLogWriter` to its queue.
* `std::map<string, shared_ptr<LogChannel>>` is the list of its entries in key order
  (`std::less<string>`, the lexicographic order of the characters).
* A C++ exception is the `Outcome.raised` result; it carries the state reached when the
  exception was thrown.
* `std::cout` and the file system are the `World`; the operating system (which paths
  can be opened for append, how `strftime` renders a time) is the `Host`.
* `Sys.fans` and `Sys.writes` are ghost logs: they record which calls were made and
  are read by no operation.
* Threads are not modelled.  `AsyncLogWriter::write` and the consumer's `flush` both run
  under `_mutex`, so an execution is a sequence of whole operations.
* Output to an open stream succeeds (an `ofstream` does not throw unless asked to); the
  only exceptions are the two `runtime_error`s of `FileChannel::open`.  The `WIN32`
  branches are left out.
-/

namespace ZL.Util

/-! ## Levels, colours, records -/

/-- The enum `LogLevel`. -/
inductive LogLevel where
  | LTrace
  | LDebug
  | LInfo
  | LWarn
  | LError
  | LFatal
  deriving DecidableEq, Repr

/-- The integer value of an enumerator. -/
def LogLevel.toNat : LogLevel → Nat
  | .LTrace => 0
  | .LDebug => 1
  | .LInfo => 2
  | .LWarn => 3
  | .LError => 4
  | .LFatal => 5

/-- The table `LogLevelStr`. -/
def LogLevelStr : LogLevel → String
  | .LTrace => "trace"
  | .LDebug => "debug"
  | .LInfo => "info"
  | .LWarn => "warn"
  | .LError => "error"
  | .LFatal => "fatal"

/-- The escape sequence `CLEAR_COLOR`. -/
def CLEAR_COLOR : String := "\x1b[0m"

/-- The table `COLOR[6][2]`; a column other than 0 reads column 1. -/
def COLOR : LogLevel → Nat → String
  | .LTrace, 0 => "\x1b[44;37m"
  | .LTrace, _ => "\x1b[34m"
  | .LDebug, 0 => "\x1b[42;37m"
  | .LDebug, _ => "\x1b[32m"
  | .LInfo, 0 => "\x1b[46;37m"
  | .LInfo, _ => "\x1b[36m"
  | .LWarn, 0 => "\x1b[43;37m"
  | .LWarn, _ => "\x1b[33m"
  | .LError, 0 => "\x1b[45;37m"
  | .LError, _ => "\x1b[35m"
  | .LFatal, 0 => "\x1b[41;37m"
  | .LFatal, _ => "\x1b[31m"

/-- The operating system as the code sees it: `canOpen p` tells whether
`ofstream::open(p, ios::out | ios::app)` succeeds, and `strftime ts fmt` is the text
that `std::strftime` leaves in the buffer for the local time of `ts` (the empty text
when it returns 0). -/
structure Host where
  canOpen : String → Bool
  strftime : Nat → String → String

/-- The class `LogInfo`; `message` is the text held by the `ostringstream`. -/
structure LogInfo where
  level : LogLevel
  line : Int
  file : String
  function : String
  ts : Nat
  message : String
  deriving DecidableEq

/-- The method `LogInfo::print` applied to `toLocal(ts)` (the branch that is not `WIN32`). -/
def LogInfo.print (host : Host) (ts : Nat) (fmt : String) : String :=
  if (host.strftime ts fmt).length = 0 then fmt else host.strftime ts fmt

/-- The method `LogInfo::format`: the text it sends to `ost`.  A null `timeFormat` is
`none`. -/
def LogInfo.format (host : Host) (r : LogInfo) (timeFormat : Option String)
    (enableColor : Bool) : String :=
  r.file ++ " " ++ toString r.line ++ "\r\n "
    ++ (if enableColor then COLOR r.level 1 else "")
    ++ (match timeFormat with
        | some fmt => LogInfo.print host r.ts fmt
        | none => "")
    ++ " [" ++ LogLevelStr r.level ++ "] "
    ++ r.function ++ " "
    ++ r.message
    ++ (if enableColor then CLEAR_COLOR else "")

/-! ## Outcomes, the world -/

/-- The result of a call: it returned, or it threw `runtime_error(what)`.  Both carry
the state that was reached. -/
inductive Outcome (σ : Type) where
  | done (s : σ)
  | raised (what : String) (s : σ)

/-- The state carried by an outcome. -/
def Outcome.state {σ : Type} : Outcome σ → σ
  | .done s => s
  | .raised _ s => s

/-- Whether the call returned. -/
def Outcome.isDone {σ : Type} : Outcome σ → Bool
  | .done _ => true
  | .raised _ _ => false

/-- What lies outside the program: the text sent to `std::cout` and the files (a path
that has no file is `none`). -/
structure World where
  cout : String
  files : String → Option String

/-- A successful `open` in append mode: the file is created empty when it is missing. -/
def World.openAppend (w : World) (path : String) : World :=
  match w.files path with
  | some _ => w
  | none => { w with files := Function.update w.files path (some "") }

/-- Output through an `ofstream`: nothing when the stream is not open, else the text is
added at the end of the file the stream is open on. -/
def World.streamWrite (w : World) (stream : Option String) (text : String) : World :=
  match stream with
  | none => w
  | some path =>
    { w with files := Function.update w.files path (some ((w.files path).getD "" ++ text)) }

/-! ## Channels -/

/-- The members of the base class `LogChannel`. -/
structure LogChannel where
  _name : String
  _level : LogLevel
  _timeFormat : String
  deriving DecidableEq

/-- The class `FileChannel`: `_fstream` is `none` when the stream is not open, else
the path of the file it is open on. -/
structure FileChannel extends LogChannel where
  _fstream : Option String
  _path : String
  deriving DecidableEq

/-- A channel object: one of the two subclasses of `LogChannel`. -/
inductive Channel where
  | console (c : LogChannel)
  | file (c : FileChannel)
  deriving DecidableEq

/-- The method `LogChannel::name`. -/
def Channel.name : Channel → String
  | .console c => c._name
  | .file c => c._name

/-- The method `LogChannel::level`. -/
def Channel.level : Channel → LogLevel
  | .console c => c._level
  | .file c => c._level

/-- The method `ConsoleChannel::write`. -/
def ConsoleChannel.write (host : Host) (c : LogChannel) (logInfo : LogInfo) (w : World) :
    Outcome (LogChannel × World) :=
  if c._level.toNat > logInfo.level.toNat then
    .done (c, w)
  else
    .done (c, { w with cout := w.cout ++ logInfo.format host (some c._timeFormat) true })

/-- The method `FileChannel::open`. -/
def FileChannel.open (host : Host) (c : FileChannel) (w : World) :
    Outcome (FileChannel × World) :=
  if c._path = "" then
    .raised "Log file path must be set." (c, w)
  else if host.canOpen c._path then
    .done ({ c with _fstream := some c._path }, w.openAppend c._path)
  else
    .raised ("Failed to open log file: " ++ c._path) ({ c with _fstream := none }, w)

/-- The method `FileChannel::write`. -/
def FileChannel.write (host : Host) (c : FileChannel) (stream : LogInfo) (w : World) :
    Outcome (FileChannel × World) :=
  if c._level.toNat > stream.level.toNat then
    .done (c, w)
  else
    match (if c._fstream = none then FileChannel.open host c w else .done (c, w)) with
    | .raised what s => .raised what s
    | .done (c1, w1) =>
      .done (c1, w1.streamWrite c1._fstream (stream.format host (some c1._timeFormat) false))

/-- The method `FileChannel::setPath`. -/
def FileChannel.setPath (host : Host) (c : FileChannel) (path : String) (w : World) :
    Outcome (FileChannel × World) :=
  FileChannel.open host { c with _path := path } w

/-- The virtual call `chn->write(stream)`. -/
def Channel.write (host : Host) (c : Channel) (stream : LogInfo) (w : World) :
    Outcome (Channel × World) :=
  match c with
  | .console b =>
    match ConsoleChannel.write host b stream w with
    | .done (b1, w1) => .done (.console b1, w1)
    | .raised what (b1, w1) => .raised what (.console b1, w1)
  | .file f =>
    match FileChannel.write host f stream w with
    | .done (f1, w1) => .done (.file f1, w1)
    | .raised what (f1, w1) => .raised what (.file f1, w1)

/-! ## The registry and the asynchronous writer -/

/-- The assignment `m[k] = v` of `std::map<string, _>`, the map being its entries in key
order. -/
def mapAssign (k : String) (v : Nat) : List (String × Nat) → List (String × Nat)
  | [] => [(k, v)]
  | (k1, v1) :: rest =>
    if k.toList < k1.toList then (k, v) :: (k1, v1) :: rest
    else if k1.toList < k.toList then (k1, v1) :: mapAssign k v rest
    else (k1, v) :: rest

/-- The pair `find(k)` and `erase(it)` of `std::map<string, _>`. -/
def mapErase (k : String) : List (String × Nat) → List (String × Nat)
  | [] => []
  | (k1, v1) :: rest => if k1 = k then rest else (k1, v1) :: mapErase k rest

/-- The channel objects and the world: what a call of a channel's `write` can change. -/
structure Mem where
  heap : Nat → Channel
  world : World

/-- Ghost record of one run of the loop `for (auto &chn : channels) chn.second->write(stream)`:
the record, the addresses in the map when the loop started, and the addresses whose
`write` was called, in call order. -/
structure Fan where
  record : LogInfo
  registered : List Nat
  called : List Nat
  deriving DecidableEq

/-- The whole program state: the singleton `Logger` (`channels`, `writer`), the channel
objects and the world, the queue `_pending` of every `AsyncLogWriter`, and the two ghost
logs (`fans`: the fan-out loops that ran; `writes`: the arguments of the calls of
`Logger::write`). -/
structure Sys extends Mem where
  channels : List (String × Nat)
  writer : Option Nat
  _pending : Nat → List LogInfo
  fans : List Fan
  writes : List LogInfo

/-- The addresses held by the map, in key order. -/
def targets (channels : List (String × Nat)) : List Nat :=
  channels.map Prod.snd

/-- The loop `for (auto &chn : channels) chn.second->write(stream)` over the entries that
are left; it returns the outcome and the addresses whose `write` it called. -/
def fanLoop (host : Host) (stream : LogInfo) : List (String × Nat) → Mem → Outcome Mem × List Nat
  | [], m => (.done m, [])
  | (_, p) :: rest, m =>
    match Channel.write host (m.heap p) stream m.world with
    | .raised what (c, w) => (.raised what ⟨Function.update m.heap p c, w⟩, [p])
    | .done (c, w) =>
      let res := fanLoop host stream rest ⟨Function.update m.heap p c, w⟩
      (res.1, p :: res.2)

/-- The fan-out loop on the program state, with its ghost record. -/
def fanOut (host : Host) (stream : LogInfo) (s : Sys) : Outcome Sys :=
  let res := fanLoop host stream s.channels s.toMem
  let s1 : Sys :=
    { s with
      toMem := res.1.state
      fans := s.fans ++ [⟨stream, targets s.channels, res.2⟩] }
  match res.1 with
  | .done _ => .done s1
  | .raised what _ => .raised what s1

/-- The method `Logger::add`, for the channel object at address `channel`. -/
def Logger.add (channel : Nat) (s : Sys) : Sys :=
  { s with channels := mapAssign (s.heap channel).name channel s.channels }

/-- The method `Logger::remove`. -/
def Logger.remove (name : String) (s : Sys) : Sys :=
  { s with channels := mapErase name s.channels }

/-- The method `Logger::setWriter`; a null pointer is `none`. -/
def Logger.setWriter (_writer : Option Nat) (s : Sys) : Sys :=
  match _writer with
  | some a => { s with writer := some a }
  | none => s

/-- The method `AsyncLogWriter::write` of the writer at address `a`. -/
def AsyncLogWriter.write (a : Nat) (stream : LogInfo) (s : Sys) : Sys :=
  { s with _pending := Function.update s._pending a (s._pending a ++ [stream]) }

/-- The method `AsyncLogWriter::realWrite`. -/
def AsyncLogWriter.realWrite (host : Host) (stream : LogInfo) (s : Sys) : Outcome Sys :=
  fanOut host stream s

/-- The loop of `AsyncLogWriter::flush`, at most `fuel` iterations. -/
def AsyncLogWriter.flushLoop (host : Host) (a : Nat) : Nat → Sys → Outcome Sys
  | 0, s => .done s
  | fuel + 1, s =>
    match s._pending a with
    | [] => .done s
    | next :: _ =>
      match AsyncLogWriter.realWrite host next s with
      | .raised what s1 => .raised what s1
      | .done s1 =>
        AsyncLogWriter.flushLoop host a fuel
          { s1 with _pending := Function.update s1._pending a (s1._pending a).tail }

/-- The method `AsyncLogWriter::flush`: the loop with one iteration for each record
that is queued when it starts. -/
def AsyncLogWriter.flush (host : Host) (a : Nat) (s : Sys) : Outcome Sys :=
  AsyncLogWriter.flushLoop host a (s._pending a).length s

/-- The destructor `~AsyncLogWriter`: once the consumer thread has been joined it is the
final `flush()`. -/
def AsyncLogWriter.destroy (host : Host) (a : Nat) (s : Sys) : Outcome Sys :=
  AsyncLogWriter.flush host a s

/-- The method `Logger::write`. -/
def Logger.write (host : Host) (stream : LogInfo) (s : Sys) : Outcome Sys :=
  let s0 : Sys := { s with writes := s.writes ++ [stream] }
  match s0.writer with
  | none => fanOut host stream s0
  | some a => .done (AsyncLogWriter.write a stream s0)

/-! ## The builder `LogInfoMaker` -/

/-- The class `LogInfoMaker`: a null `logInfo` is `none`. -/
structure LogInfoMaker where
  logInfo : Option LogInfo
  deriving DecidableEq

/-- The constructor `LogInfoMaker(level, file, function, line)`; `now` is the value of
`::time(NULL)`. -/
def LogInfoMaker.create (level : LogLevel) (file function : String) (line : Int) (now : Nat) :
    LogInfoMaker :=
  ⟨some ⟨level, line, file, function, now, ""⟩⟩

/-- The copy constructor and the move constructor (they have the same body): the new
builder and what is left of `that`. -/
def LogInfoMaker.takeFrom (that : LogInfoMaker) : LogInfoMaker × LogInfoMaker :=
  (⟨that.logInfo⟩, ⟨none⟩)

/-- The template `operator<<(const T& data)`; `data` is the text that `message << data`
appends. -/
def LogInfoMaker.shl (m : LogInfoMaker) (data : String) : LogInfoMaker :=
  match m.logInfo with
  | none => m
  | some r => ⟨some { r with message := r.message ++ data }⟩

/-- The overload `operator<<(ostream&(*f)(ostream&))` applied to `endl`. -/
def LogInfoMaker.endl (host : Host) (m : LogInfoMaker) (s : Sys) :
    Outcome (LogInfoMaker × Sys) :=
  match m.logInfo with
  | none => .done (m, s)
  | some r =>
    match Logger.write host { r with message := r.message ++ "\n" } s with
    | .raised what s1 => .raised what (⟨some { r with message := r.message ++ "\n" }⟩, s1)
    | .done s1 => .done (⟨none⟩, s1)

/-- The method `LogInfoMaker::clear`. -/
def LogInfoMaker.clear (_m : LogInfoMaker) : LogInfoMaker :=
  ⟨none⟩

/-- The destructor `~LogInfoMaker`. -/
def LogInfoMaker.destroy (host : Host) (m : LogInfoMaker) (s : Sys) :
    Outcome (LogInfoMaker × Sys) :=
  LogInfoMaker.endl host m s

/-- What can be done to a builder between its construction and its destruction: append
a value, the terminal `endl`, `clear`, and being the source of a copy or move
construction. -/
inductive MakerOp where
  | shl (data : String)
  | endl
  | clear
  | taken
  deriving DecidableEq

/-- One operation on the builder. -/
def MakerOp.apply (host : Host) (op : MakerOp) (m : LogInfoMaker) (s : Sys) :
    Outcome (LogInfoMaker × Sys) :=
  match op with
  | .shl data => .done (m.shl data, s)
  | .endl => m.endl host s
  | .clear => .done (m.clear, s)
  | .taken => .done ((LogInfoMaker.takeFrom m).2, s)

/-- The life of a builder: the operations in turn, then its destructor.  An operation
that throws ends the scope of the builder, so the remaining operations are skipped and
the destructor runs while the exception unwinds. -/
def LogInfoMaker.life (host : Host) : List MakerOp → LogInfoMaker → Sys → Outcome Sys
  | [], m, s =>
    match m.destroy host s with
    | .done (_, s1) => .done s1
    | .raised what (_, s1) => .raised what s1
  | op :: rest, m, s =>
    match op.apply host m s with
    | .done (m1, s1) => LogInfoMaker.life host rest m1 s1
    | .raised what (m1, s1) =>
      match m1.destroy host s1 with
      | .done (_, s2) => .raised what s2
      | .raised what2 (_, s2) => .raised what2 s2

/-! ## Executions of a writer -/

/-- One step of an execution around the writer at a fixed address: a producer enqueues,
the consumer drains, or the registry changes. -/
inductive Step where
  | write (stream : LogInfo)
  | flush
  | add (channel : Nat)
  | remove (name : String)
  deriving DecidableEq

/-- One step on the program state. -/
def Step.run (host : Host) (a : Nat) : Step → Sys → Outcome Sys
  | .write stream, s => .done (AsyncLogWriter.write a stream s)
  | .flush, s => AsyncLogWriter.flush host a s
  | .add channel, s => .done (Logger.add channel s)
  | .remove name, s => .done (Logger.remove name s)

/-- The steps in turn; an exception ends the execution. -/
def runSteps (host : Host) (a : Nat) : List Step → Sys → Outcome Sys
  | [], s => .done s
  | st :: rest, s =>
    match st.run host a s with
    | .done s1 => runSteps host a rest s1
    | .raised what s1 => .raised what s1

/-- The steps, then the destructor of the writer. -/
def shutdown (host : Host) (a : Nat) (steps : List Step) (s : Sys) : Outcome Sys :=
  match runSteps host a steps s with
  | .done s1 => AsyncLogWriter.destroy host a s1
  | .raised what s1 => .raised what s1

/-- The records enqueued by the steps, in order. -/
def enqueued : List Step → List LogInfo
  | [] => []
  | .write stream :: rest => stream :: enqueued rest
  | _ :: rest => enqueued rest

/-! ## The end-to-end scenario -/

/-- Sequencing: the next call runs when the first returned; an exception ends the
execution. -/
def Outcome.andThen {σ : Type} (o : Outcome σ) (next : σ → Outcome σ) : Outcome σ :=
  match o with
  | .done s => next s
  | .raised what s => .raised what s

/-- What a call site supplies to a logging statement: the location, the time of the
call, and the text that is streamed into the builder. -/
structure CallSite where
  file : String
  function : String
  line : Int
  now : Nat
  text : String

/-- The statement `LogInfoMaker(level, file, function, line) << text;` whose temporary
builder is destroyed at the end of the statement. -/
def emit (host : Host) (level : LogLevel) (c : CallSite) (s : Sys) : Outcome Sys :=
  LogInfoMaker.life host [.shl c.text] (LogInfoMaker.create level c.file c.function c.line c.now) s

/-- The record that `emit` hands to `Logger::write`. -/
def CallSite.record (level : LogLevel) (c : CallSite) : LogInfo :=
  ⟨level, c.line, c.file, c.function, c.now, "" ++ c.text ++ "\n"⟩

/-- The scenario: the channel object at `p` is registered and the writer at `a` is
installed; one record is emitted at debug level and one at error level; the consumer
may drain after each (`drain1`, `drain2`); then the writer is destroyed. -/
def scenario (host : Host) (a p : Nat) (drain1 drain2 : Bool) (c1 c2 : CallSite) (init : Sys) :
    Outcome Sys :=
  (((emit host .LDebug c1 (Logger.setWriter (some a) (Logger.add p init))).andThen
    (fun s => if drain1 then AsyncLogWriter.flush host a s else .done s)).andThen
    (fun s => emit host .LError c2 s)).andThen
    (fun s => (if drain2 then AsyncLogWriter.flush host a s else .done s).andThen
      (fun s1 => AsyncLogWriter.destroy host a s1))

/-! ## The records a builder delivers -/

/-- The records a builder hands to `Logger::write` during its life when `Logger::write`
returns: none when it owns no record or loses it (`clear`, copied or moved from)
before the first terminal `endl`, else the one record, with what was appended so far
and the line end. -/
def delivered : Option LogInfo → List MakerOp → List LogInfo
  | none, _ => []
  | some r, [] => [{ r with message := r.message ++ "\n" }]
  | some r, .shl data :: rest => delivered (some { r with message := r.message ++ data }) rest
  | some r, .endl :: _ => [{ r with message := r.message ++ "\n" }]
  | some _, .clear :: _ => []
  | some _, .taken :: _ => []

/-- Whether the builder still owns its record at the first terminal `endl`, or at its
destruction when there is none. -/
def ownsAtEnd : Option LogInfo → List MakerOp → Bool
  | none, _ => false
  | some _, [] => true
  | some r, .shl data :: rest => ownsAtEnd (some { r with message := r.message ++ data }) rest
  | some _, .endl :: _ => true
  | some _, .clear :: _ => false
  | some _, .taken :: _ => false

/-! ## Predicates used in the statements -/

/-- The keys of the map are in strictly increasing order. -/
def Ordered (channels : List (String × Nat)) : Prop :=
  channels.Pairwise (fun x y => x.1.toList < y.1.toList)

/-- Every entry of the map is filed under the name of the object it points to, as
`Logger::add` files it. -/
def Keyed (heap : Nat → Channel) (channels : List (String × Nat)) : Prop :=
  ∀ e ∈ channels, (heap e.2).name = e.1

/-- The registry invariant: it holds for the empty map and every operation keeps it. -/
def WF (s : Sys) : Prop :=
  Ordered s.channels ∧ Keyed s.heap s.channels

/-- Whether `write` of this channel throws for this record: a file channel that accepts
the level, whose stream is closed and whose path is empty or cannot be opened. -/
def Channel.fails (host : Host) (c : Channel) (stream : LogInfo) : Bool :=
  match c with
  | .console _ => false
  | .file f =>
    !(decide (f._level.toNat > stream.level.toNat)) && f._fstream.isNone
      && (f._path == "" || !host.canOpen f._path)

/-- A channel whose `write` throws for no record: a console channel, or a file channel
whose stream is open or whose path is set and can be opened. -/
def Channel.robust (host : Host) (c : Channel) : Bool :=
  match c with
  | .console _ => true
  | .file f => f._fstream.isSome || (f._path != "" && host.canOpen f._path)

/-- The records that the channel at address `p` was given by the fan-outs, in order,
each as many times as its `write` was called. -/
def observed (p : Nat) (fans : List Fan) : List LogInfo :=
  fans.flatMap (fun f => List.replicate (f.called.count p) f.record)

/-- What a run of the loop of `flush` on the writer at `a` did, from the state `s` to the
outcome `o`, with `new` the fan-outs it made. -/
structure Flushed (host : Host) (a : Nat) (s : Sys) (o : Outcome Sys) (new : List Fan) :
    Prop where
  fans : o.state.fans = s.fans ++ new
  channels : o.state.channels = s.channels
  writer : o.state.writer = s.writer
  writes : o.state.writes = s.writes
  others : ∀ b, b ≠ a → o.state._pending b = s._pending b
  names : ∀ q, (o.state.heap q).name = (s.heap q).name
  robust : ∀ q, (s.heap q).robust host = true → (o.state.heap q).robust host = true
  registered : ∀ f ∈ new, f.registered = targets s.channels ∧ f.called <+: f.registered
  whenDone : o.isDone = true →
    o.state._pending a = [] ∧ new.map Fan.record = s._pending a ∧
      ∀ f ∈ new, f.called = f.registered
  whenRaised : o.isDone = false →
    ∃ l1 r l2, s._pending a = l1 ++ r :: l2 ∧ o.state._pending a = r :: l2 ∧
      new.map Fan.record = l1 ++ [r] ∧
      ∀ f ∈ new.dropLast, f.called = f.registered
  completes : (∀ e ∈ s.channels, (s.heap e.2).robust host = true) → o.isDone = true

/-- The channel object at `p` is never taken out of the map by the steps: none removes
its name and none adds another object under its name. -/
def Stays (heap : Nat → Channel) (p : Nat) (steps : List Step) : Prop :=
  (∀ name, Step.remove name ∈ steps → name ≠ (heap p).name) ∧
  (∀ q, Step.add q ∈ steps → (heap q).name = (heap p).name → q = p)

/-- Every channel in the map, and every channel that the steps add, is robust. -/
def AllRobust (host : Host) (s : Sys) (steps : List Step) : Prop :=
  (∀ e ∈ s.channels, (s.heap e.2).robust host = true) ∧
  (∀ q, Step.add q ∈ steps → (s.heap q).robust host = true)

/-! ## Concrete inputs used by the examples -/

/-- A host on which every path opens and every time renders as `T`. -/
def plainHost : Host := ⟨fun _ => true, fun _ _ => "T"⟩

/-- A world with no output and no file. -/
def emptyWorld : World := ⟨"", fun _ => none⟩

/-- A file channel named `a` with an empty path and a closed stream. -/
def brokenFile : Channel := .file ⟨⟨"a", .LDebug, "%T"⟩, none, ""⟩

/-- A console channel named `b`. -/
def consoleB : Channel := .console ⟨"b", .LDebug, "%T"⟩

/-- A heap with `brokenFile` at address 1 and `consoleB` elsewhere. -/
def demoHeap : Nat → Channel := fun p => if p = 1 then brokenFile else consoleB

/-- A record of level info from line 7 of `x.cpp`. -/
def demoRecord : LogInfo := ⟨.LInfo, 7, "x.cpp", "main", 0, "hi\n"⟩

/-- A program state with `brokenFile` and `consoleB` registered, no writer installed and
every queue empty. -/
def brokenSys : Sys :=
  { heap := demoHeap
    world := emptyWorld
    channels := [("a", 1), ("b", 2)]
    writer := none
    _pending := fun _ => []
    fans := []
    writes := [] }

/-- A heap with a console channel named `a` at address 1 and a file channel named `z`
with an empty path elsewhere. -/
def lateHeap : Nat → Channel := fun p =>
  if p = 1 then .console ⟨"a", .LDebug, "%T"⟩ else .file ⟨⟨"z", .LDebug, "%T"⟩, none, ""⟩

/-- A program state with the console channel `a` and the file channel `z` (empty path)
registered, no writer installed and every queue empty. -/
def lateSys : Sys :=
  { heap := lateHeap
    world := emptyWorld
    channels := [("a", 1), ("z", 2)]
    writer := none
    _pending := fun _ => []
    fans := []
    writes := [] }

/-- The program state right after the `Logger` is constructed (the heap is `demoHeap`):
no channel, no writer, every queue empty. -/
def freshSys : Sys :=
  { heap := demoHeap
    world := emptyWorld
    channels := []
    writer := none
    _pending := fun _ => []
    fans := []
    writes := [] }

/-- A program state with the console channel `b` alone registered. -/
def consoleSys : Sys :=
  { freshSys with channels := [("b", 2)] }

/-- A file channel named `f` with threshold info, the path `app.log` and a closed
stream. -/
def fileF : Channel := .file ⟨⟨"f", .LInfo, "%T"⟩, none, "app.log"⟩

/-- The program state right after the `Logger` is constructed, with `fileF` at every
address of the heap. -/
def scenarioSys : Sys :=
  { freshSys with heap := fun _ => fileF }

/-- The call site of the debug statement of the scenario. -/
def debugSite : CallSite := ⟨"main.cpp", "run", 41, 0, "starting"⟩

/-- The call site of the error statement of the scenario. -/
def errorSite : CallSite := ⟨"main.cpp", "run", 42, 0, "boom"⟩

/-! # Theorems -/

/-! ## Texts -/

theorem String.append_ne_self_of_ne_empty (a b : String) (hb : b ≠ "") : a ++ b ≠ a := by
  intro h
  apply hb
  have h1 : (a ++ b).data = a.data := by rw [h]
  rw [String.data_append] at h1
  have h2 : b.data = [] := by simpa using h1
  exact String.ext h2

theorem LogInfo.format_ne_empty (host : Host) (r : LogInfo) (tf : Option String) (color : Bool) :
    r.format host tf color ≠ "" := by
  intro h
  have h1 : (r.format host tf color).length = 0 := by rw [h]; rfl
  simp only [LogInfo.format, String.length_append] at h1
  have h2 : (" " : String).length = 1 := by decide
  omega

/-- The rendering of a record contains its level tag and its line number. -/
theorem LogInfo.format_contains (host : Host) (r : LogInfo) (tf : Option String) (color : Bool) :
    (LogLevelStr r.level).toList <:+: (r.format host tf color).toList ∧
    (toString r.line).toList <:+: (r.format host tf color).toList := by
  constructor
  · refine ⟨(r.file ++ " " ++ toString r.line ++ "\r\n "
        ++ (if color then COLOR r.level 1 else "")
        ++ (match tf with
            | some fmt => LogInfo.print host r.ts fmt
            | none => "") ++ " [").toList,
      ("] " ++ r.function ++ " " ++ r.message ++ (if color then CLEAR_COLOR else "")).toList, ?_⟩
    simp [LogInfo.format, String.toList, String.data_append, List.append_assoc]
  · refine ⟨(r.file ++ " ").toList,
      ("\r\n " ++ (if color then COLOR r.level 1 else "")
        ++ (match tf with
            | some fmt => LogInfo.print host r.ts fmt
            | none => "") ++ " [" ++ LogLevelStr r.level ++ "] "
        ++ r.function ++ " " ++ r.message ++ (if color then CLEAR_COLOR else "")).toList, ?_⟩
    simp [LogInfo.format, String.toList, String.data_append, List.append_assoc]

/-! ## Channels: what `write` keeps and when it throws -/

theorem Channel.write_name (host : Host) (c : Channel) (r : LogInfo) (w : World) :
    (Channel.write host c r w).state.1.name = c.name := by
  cases c with
  | console b =>
    simp only [Channel.write, ConsoleChannel.write]
    split_ifs <;> rfl
  | file f =>
    simp only [Channel.write, FileChannel.write, FileChannel.open]
    split_ifs <;> rfl

theorem Channel.write_isDone (host : Host) (c : Channel) (r : LogInfo) (w : World) :
    (Channel.write host c r w).isDone = !c.fails host r := by
  cases c with
  | console b =>
    simp only [Channel.write, ConsoleChannel.write, Channel.fails]
    split_ifs <;> rfl
  | file f =>
    simp only [Channel.write, FileChannel.write, FileChannel.open, Channel.fails]
    cases hs : f._fstream <;> split_ifs <;> simp_all [Outcome.isDone]

theorem Channel.write_robust (host : Host) (c : Channel) (r : LogInfo) (w : World)
    (h : c.robust host = true) :
    (Channel.write host c r w).state.1.robust host = true := by
  cases c with
  | console b =>
    simp only [Channel.write, ConsoleChannel.write]
    split_ifs <;> rfl
  | file f =>
    simp only [Channel.robust] at h
    simp only [Channel.write, FileChannel.write, FileChannel.open]
    split_ifs <;> simp_all [Outcome.state, Channel.robust]

theorem Channel.not_fails_of_robust (host : Host) (c : Channel) (r : LogInfo)
    (h : c.robust host = true) : c.fails host r = false := by
  cases c with
  | console b => rfl
  | file f =>
    simp only [Channel.robust] at h
    simp only [Channel.fails]
    cases hs : f._fstream <;> simp_all

theorem Channel.write_not_fails (host : Host) (c : Channel) (r : LogInfo) (w : World)
    (h : c.fails host r = false) :
    (Channel.write host c r w).state.1.fails host r = false := by
  cases c with
  | console b =>
    simp only [Channel.write, ConsoleChannel.write]
    split_ifs <;> rfl
  | file f =>
    simp only [Channel.fails] at h
    simp only [Channel.write, FileChannel.write, FileChannel.open]
    split_ifs <;> simp_all [Outcome.state, Channel.fails]

/-! ## C3: the threshold filter -/

/-- C3. For every record severity `S` and channel threshold `T`: `ConsoleChannel::write`
adds the rendering of the record to `std::cout` when `S >= T` and `FileChannel::write`
(its stream open, or closed with a path that opens) adds it to its file when `S >= T`;
the output changes iff `S >= T`; and when `S < T` both return at once with the channel
and the world unchanged, whatever the path of the file channel (also the empty path, so
no file is opened and no error is raised). -/
theorem threshold_filter (host : Host) (S T : LogLevel) (name tf file function message : String)
    (line : Int) (ts : Nat) (w : World) (stream : Option String) (path : String) :
    (let r : LogInfo := ⟨S, line, file, function, ts, message⟩
    let b : LogChannel := ⟨name, T, tf⟩
    let f : FileChannel := ⟨b, stream, path⟩
    (T.toNat ≤ S.toNat →
      ConsoleChannel.write host b r w
        = .done (b, { w with cout := w.cout ++ r.format host (some tf) true })) ∧
    (S.toNat < T.toNat → ConsoleChannel.write host b r w = .done (b, w)) ∧
    ((ConsoleChannel.write host b r w).state.2.cout ≠ w.cout ↔ T.toNat ≤ S.toNat) ∧
    (T.toNat ≤ S.toNat → ∀ q, stream = some q →
      FileChannel.write host f r w
        = .done (f, w.streamWrite (some q) (r.format host (some tf) false))) ∧
    (T.toNat ≤ S.toNat → stream = none → path ≠ "" → host.canOpen path = true →
      FileChannel.write host f r w
        = .done ({ f with _fstream := some path },
            (w.openAppend path).streamWrite (some path) (r.format host (some tf) false))) ∧
    (S.toNat < T.toNat → FileChannel.write host f r w = .done (f, w)) ∧
    (∀ q, stream = some q ∨ (stream = none ∧ path ≠ "" ∧ host.canOpen path = true ∧ q = path) →
      ((FileChannel.write host f r w).state.2.files q ≠ w.files q ↔ T.toNat ≤ S.toNat))) := by
  intro r b f
  have hne := LogInfo.format_ne_empty host r (some tf)
  refine ⟨?_, ?_, ?_, ?_, ?_, ?_, ?_⟩
  · intro h
    simp [ConsoleChannel.write, b, r, Nat.not_lt.mpr h]
  · intro h
    simp [ConsoleChannel.write, b, r, h]
  · by_cases h : T.toNat ≤ S.toNat
    · simp only [ConsoleChannel.write, b, r, gt_iff_lt, Nat.not_lt.mpr h, if_false,
        Outcome.state, h, iff_true]
      exact String.append_ne_self_of_ne_empty _ _ (hne true)
    · simp [ConsoleChannel.write, b, r, Nat.lt_of_not_le h, Outcome.state, h]
  · intro h q hq
    subst hq
    simp [FileChannel.write, f, b, r, Nat.not_lt.mpr h]
  · intro h hs hp hc
    subst hs
    simp [FileChannel.write, FileChannel.open, f, b, r, Nat.not_lt.mpr h, hp, hc]
  · intro h
    simp [FileChannel.write, f, b, r, h]
  · intro q hq
    by_cases h : T.toNat ≤ S.toNat
    · simp only [h, iff_true]
      rcases hq with hq | ⟨hs, hp, hc, hq⟩
      · have e : FileChannel.write host f r w
            = .done (f, w.streamWrite (some q) (r.format host (some tf) false)) := by
          subst hq
          simp [FileChannel.write, f, b, r, Nat.not_lt.mpr h]
        rw [e]
        simp only [Outcome.state, World.streamWrite, Function.update_same]
        cases hw : w.files q with
        | none => simp
        | some old =>
          simp only [Option.getD_some, ne_eq, Option.some.injEq]
          exact String.append_ne_self_of_ne_empty _ _ (hne false)
      · have e : FileChannel.write host f r w
            = .done ({ f with _fstream := some path },
                (w.openAppend path).streamWrite (some path) (r.format host (some tf) false)) := by
          subst hs
          simp [FileChannel.write, FileChannel.open, f, b, r, Nat.not_lt.mpr h, hp, hc]
        rw [e, hq]
        simp only [Outcome.state, World.streamWrite, Function.update_same]
        cases hw : w.files path with
        | none => simp
        | some old =>
          simp only [World.openAppend, hw, Option.getD_some, ne_eq, Option.some.injEq]
          exact String.append_ne_self_of_ne_empty _ _ (hne false)
    · have h1 := Nat.lt_of_not_le h
      simp [FileChannel.write, f, b, r, h1, Outcome.state, h]

/-! ## C7: a file channel with an empty path -/

/-- C7, the claim as stated fails. A file channel built with the path `a.log` is opened
by `setPath("a.log")`; `setPath("")` then throws and leaves it with an empty path and
its stream still open; the first `write` of a record that passes the threshold does not
fail: it returns and adds the rendering to `a.log`. -/
theorem empty_path_first_write_counterexample :
    (let c0 : FileChannel := ⟨⟨"f", .LDebug, "%T"⟩, none, "a.log"⟩
    let r : LogInfo := ⟨.LInfo, 7, "x.cpp", "main", 0, "hi\n"⟩
    let o1 := FileChannel.setPath plainHost c0 "a.log" emptyWorld
    let o2 := FileChannel.setPath plainHost o1.state.1 "" o1.state.2
    let o3 := FileChannel.write plainHost o2.state.1 r o2.state.2
    o1.isDone = true ∧ o2.isDone = false ∧ o2.state.1._path = "" ∧
      ¬ (o2.state.1._level.toNat > r.level.toNat) ∧
      o3.isDone = true ∧ o3.state.2.files "a.log" = some "x.cpp 7\r\n T [info] main hi\n") := by
  decide

/-- C7 as amended. For every file channel whose path is empty, `open` throws
"Log file path must be set." with the channel and the world unchanged; `setPath("")` on
any file channel throws the same error, having only set the path to the empty text (the
stream and the world are unchanged); and `write` of a record that passes the threshold
throws the same error with the channel and the world unchanged when the stream is not
open. The error is thrown before the stream is touched: no file is opened or created and
nothing is written. -/
theorem empty_path_raises (host : Host) (c : FileChannel) (r : LogInfo) (w : World)
    (hpath : c._path = "") :
    FileChannel.open host c w = .raised "Log file path must be set." (c, w) ∧
    (∀ d : FileChannel, FileChannel.setPath host d "" w
        = .raised "Log file path must be set." ({ d with _path := "" }, w)) ∧
    (¬ (c._level.toNat > r.level.toNat) → c._fstream = none →
      FileChannel.write host c r w = .raised "Log file path must be set." (c, w)) := by
  refine ⟨?_, ?_, ?_⟩
  · simp [FileChannel.open, hpath]
  · intro d
    simp [FileChannel.setPath, FileChannel.open]
  · intro hl hs
    simp [FileChannel.write, FileChannel.open, hpath, hl, hs]

/-- The amended C7 at a channel named `f` with an empty path and a closed stream. -/
theorem empty_path_raises_witness :
    (let c : FileChannel := ⟨⟨"f", .LDebug, "%T"⟩, none, ""⟩
    let r : LogInfo := ⟨.LInfo, 7, "x.cpp", "main", 0, "hi\n"⟩
    c._path = "" ∧
    (FileChannel.open plainHost c emptyWorld = .raised "Log file path must be set." (c, emptyWorld) ∧
    (∀ d : FileChannel, FileChannel.setPath plainHost d "" emptyWorld
        = .raised "Log file path must be set." ({ d with _path := "" }, emptyWorld)) ∧
    (¬ (c._level.toNat > r.level.toNat) → c._fstream = none →
      FileChannel.write plainHost c r emptyWorld
        = .raised "Log file path must be set." (c, emptyWorld)))) :=
  ⟨rfl, empty_path_raises plainHost ⟨⟨"f", .LDebug, "%T"⟩, none, ""⟩
    ⟨.LInfo, 7, "x.cpp", "main", 0, "hi\n"⟩ emptyWorld rfl⟩

/-! ## The fan-out loop -/

theorem fanLoop_called_isPrefix (host : Host) (r : LogInfo) (l : List (String × Nat)) :
    ∀ m : Mem, (fanLoop host r l m).2 <+: targets l := by
  induction l with
  | nil => intro m; simp [fanLoop, targets]
  | cons e rest ih =>
    intro m
    obtain ⟨k, p⟩ := e
    cases h : Channel.write host (m.heap p) r m.world with
    | done x =>
      simp only [fanLoop, h, targets, List.map_cons]
      exact (List.prefix_cons_inj p).mpr (ih _)
    | raised what x =>
      simp only [fanLoop, h, targets, List.map_cons]
      exact (List.prefix_cons_inj p).mpr List.nil_prefix

theorem fanLoop_called_of_done (host : Host) (r : LogInfo) (l : List (String × Nat)) :
    ∀ m : Mem, (fanLoop host r l m).1.isDone = true → (fanLoop host r l m).2 = targets l := by
  induction l with
  | nil => intro m _; simp [fanLoop, targets]
  | cons e rest ih =>
    intro m
    obtain ⟨k, p⟩ := e
    cases h : Channel.write host (m.heap p) r m.world with
    | done x =>
      simp only [fanLoop, h, targets, List.map_cons]
      intro hd
      rw [ih _ hd]
      rfl
    | raised what x =>
      simp [fanLoop, h, Outcome.isDone]

theorem fanLoop_name (host : Host) (r : LogInfo) (l : List (String × Nat)) :
    ∀ (m : Mem) (q : Nat), ((fanLoop host r l m).1.state.heap q).name = (m.heap q).name := by
  induction l with
  | nil => intro m q; simp [fanLoop, Outcome.state]
  | cons e rest ih =>
    intro m q
    obtain ⟨k, p⟩ := e
    have hn := Channel.write_name host (m.heap p) r m.world
    cases h : Channel.write host (m.heap p) r m.world with
    | done x =>
      rw [h] at hn
      simp only [fanLoop, h]
      rw [ih]
      by_cases hq : q = p
      · subst hq
        simpa [Outcome.state] using hn
      · simp [Function.update_noteq hq]
    | raised what x =>
      rw [h] at hn
      simp only [fanLoop, h, Outcome.state]
      by_cases hq : q = p
      · subst hq
        simpa [Outcome.state] using hn
      · simp [Function.update_noteq hq]

theorem fanLoop_robust (host : Host) (r : LogInfo) (l : List (String × Nat)) :
    ∀ (m : Mem) (q : Nat), (m.heap q).robust host = true →
      ((fanLoop host r l m).1.state.heap q).robust host = true := by
  induction l with
  | nil => intro m q hq; simpa [fanLoop, Outcome.state] using hq
  | cons e rest ih =>
    intro m q hrob
    obtain ⟨k, p⟩ := e
    have hstep : ∀ c w, (Channel.write host (m.heap p) r m.world).state = (c, w) →
        (Function.update m.heap p c q).robust host = true := by
      intro c w hcw
      by_cases hq : q = p
      · subst hq
        have := Channel.write_robust host (m.heap q) r m.world hrob
        rw [hcw] at this
        simpa using this
      · simpa [Function.update_noteq hq] using hrob
    cases h : Channel.write host (m.heap p) r m.world with
    | done x =>
      simp only [fanLoop, h]
      apply ih
      exact hstep x.1 x.2 (by rw [h]; rfl)
    | raised what x =>
      simp only [fanLoop, h, Outcome.state]
      exact hstep x.1 x.2 (by rw [h]; rfl)

theorem fanLoop_done_of_robust (host : Host) (r : LogInfo) (l : List (String × Nat)) :
    ∀ m : Mem, (∀ e ∈ l, (m.heap e.2).robust host = true) →
      (fanLoop host r l m).1.isDone = true := by
  induction l with
  | nil => intro m _; rfl
  | cons e rest ih =>
    intro m hall
    obtain ⟨k, p⟩ := e
    have hp : (m.heap p).robust host = true := hall (k, p) (List.mem_cons_self _ _)
    have hd := Channel.write_isDone host (m.heap p) r m.world
    rw [Channel.not_fails_of_robust host _ r hp] at hd
    have hw := Channel.write_robust host (m.heap p) r m.world hp
    cases h : Channel.write host (m.heap p) r m.world with
    | done x =>
      simp only [fanLoop, h]
      apply ih
      intro e he
      by_cases hq : e.2 = p
      · rw [hq]
        rw [h] at hw
        simpa [Outcome.state] using hw
      · simpa [Function.update_noteq hq] using hall e (List.mem_cons_of_mem _ he)
    | raised what x =>
      rw [h] at hd
      simp [Outcome.isDone] at hd

/-- The loop stops at the first channel whose `write` throws: the channels before it
were called, it was called, and the exception leaves the loop. -/
theorem fanLoop_raised (host : Host) (r : LogInfo) (pre : List (String × Nat)) (k : String)
    (p : Nat) (post : List (String × Nat)) :
    ∀ m : Mem, (∀ e ∈ pre, (m.heap e.2).fails host r = false) →
      (m.heap p).fails host r = true →
      (fanLoop host r (pre ++ (k, p) :: post) m).1.isDone = false ∧
      (fanLoop host r (pre ++ (k, p) :: post) m).2 = targets pre ++ [p] := by
  induction pre with
  | nil =>
    intro m _ hp
    have hd := Channel.write_isDone host (m.heap p) r m.world
    rw [hp] at hd
    cases h : Channel.write host (m.heap p) r m.world with
    | done x =>
      rw [h] at hd
      simp [Outcome.isDone] at hd
    | raised what x =>
      simp [fanLoop, h, Outcome.isDone, targets]
  | cons e rest ih =>
    intro m hall hp
    obtain ⟨k0, q⟩ := e
    have hq : (m.heap q).fails host r = false := hall (k0, q) (List.mem_cons_self _ _)
    have hne : p ≠ q := by
      intro hpq
      rw [hpq, hq] at hp
      exact Bool.noConfusion hp
    have hd := Channel.write_isDone host (m.heap q) r m.world
    rw [hq] at hd
    have hw := Channel.write_not_fails host (m.heap q) r m.world hq
    cases h : Channel.write host (m.heap q) r m.world with
    | raised what x =>
      rw [h] at hd
      simp [Outcome.isDone] at hd
    | done x =>
      rw [h] at hw
      simp only [List.cons_append, fanLoop, h, targets, List.map_cons]
      have := ih ⟨Function.update m.heap q x.1, x.2⟩ (by
        intro e he
        by_cases heq : e.2 = q
        · rw [heq]
          simpa [Outcome.state] using hw
        · simpa [Function.update_noteq heq] using hall e (List.mem_cons_of_mem _ he))
        (by simpa [Function.update_noteq hne] using hp)
      refine ⟨this.1, ?_⟩
      exact congrArg (List.cons q) this.2

theorem fanOut_state (host : Host) (r : LogInfo) (s : Sys) :
    (fanOut host r s).state =
      { s with
        toMem := (fanLoop host r s.channels s.toMem).1.state
        fans := s.fans ++ [⟨r, targets s.channels, (fanLoop host r s.channels s.toMem).2⟩] } := by
  simp only [fanOut]
  split <;> rfl

theorem fanOut_isDone (host : Host) (r : LogInfo) (s : Sys) :
    (fanOut host r s).isDone = (fanLoop host r s.channels s.toMem).1.isDone := by
  simp only [fanOut]
  split <;> rename_i h <;> rw [h] <;> rfl

theorem Outcome.eq_done_of_isDone {σ : Type} (o : Outcome σ) (h : o.isDone = true) :
    o = .done o.state := by
  cases o with
  | done s => rfl
  | raised what s => simp [Outcome.isDone] at h

theorem Outcome.eq_raised_of_not_isDone {σ : Type} (o : Outcome σ) (h : o.isDone = false) :
    ∃ what, o = .raised what o.state := by
  cases o with
  | done s => simp [Outcome.isDone] at h
  | raised what s => exact ⟨what, rfl⟩

/-! ## The loop of `flush` -/

theorem flushLoop_spec (host : Host) (a : Nat) :
    ∀ (n : Nat) (s : Sys), (s._pending a).length ≤ n →
      ∃ new, Flushed host a s (AsyncLogWriter.flushLoop host a n s) new := by
  intro n
  induction n with
  | zero =>
    intro s hlen
    have hnil : s._pending a = [] := List.length_eq_zero.mp (Nat.le_zero.mp hlen)
    refine ⟨[], ?_⟩
    constructor <;> simp [AsyncLogWriter.flushLoop, Outcome.state, Outcome.isDone, hnil]
  | succ n ih =>
    intro s hlen
    cases hq : s._pending a with
    | nil =>
      refine ⟨[], ?_⟩
      constructor <;> simp [AsyncLogWriter.flushLoop, Outcome.state, Outcome.isDone, hq]
    | cons next rest =>
      have hst := fanOut_state host next s
      have hpre := fanLoop_called_isPrefix host next s.channels s.toMem
      cases hfo : fanOut host next s with
      | raised what x =>
        rw [hfo] at hst
        replace hst : x = _ := hst
        refine ⟨[⟨next, targets s.channels, (fanLoop host next s.channels s.toMem).2⟩], ?_⟩
        have hfl : AsyncLogWriter.flushLoop host a (n + 1) s = .raised what x := by
          simp only [AsyncLogWriter.flushLoop, hq, AsyncLogWriter.realWrite, hfo]
        rw [hfl, hst]
        constructor
        · simp [Outcome.state]
        · simp [Outcome.state]
        · simp [Outcome.state]
        · simp [Outcome.state]
        · simp [Outcome.state]
        · intro q
          simpa [Outcome.state] using fanLoop_name host next s.channels s.toMem q
        · intro q hr
          simpa [Outcome.state] using fanLoop_robust host next s.channels s.toMem q hr
        · intro f hf
          simp only [List.mem_singleton] at hf
          subst hf
          exact ⟨rfl, hpre⟩
        · intro h
          simp [Outcome.isDone] at h
        · intro _
          exact ⟨[], next, rest, by simp [hq], by simp [Outcome.state, hq], by simp, by simp⟩
        · intro hall
          have h1 := fanLoop_done_of_robust host next s.channels s.toMem hall
          rw [← fanOut_isDone, hfo] at h1
          exact h1
      | done x =>
        rw [hfo] at hst
        replace hst : x = _ := hst
        have hcalled := fanLoop_called_of_done host next s.channels s.toMem
          (by rw [← fanOut_isDone, hfo]; rfl)
        have hfl : AsyncLogWriter.flushLoop host a (n + 1) s
            = AsyncLogWriter.flushLoop host a n
                { x with _pending := Function.update x._pending a (x._pending a).tail } := by
          simp only [AsyncLogWriter.flushLoop, hq, AsyncLogWriter.realWrite, hfo]
        rw [hfl]
        generalize hs2 : ({ x with _pending := Function.update x._pending a (x._pending a).tail }
          : Sys) = s2
        have hp2 : s2._pending a = rest := by
          rw [← hs2]
          simp [hst, hq]
        have hlen2 : (s2._pending a).length ≤ n := by
          rw [hp2]
          rw [hq] at hlen
          simpa using hlen
        have hch : s2.channels = s.channels := by rw [← hs2]; simp [hst]
        have hheap : s2.heap = (fanLoop host next s.channels s.toMem).1.state.heap := by
          rw [← hs2]; simp [hst]
        obtain ⟨new2, F⟩ := ih s2 hlen2
        refine ⟨⟨next, targets s.channels, (fanLoop host next s.channels s.toMem).2⟩ :: new2, ?_⟩
        constructor
        · rw [F.fans, ← hs2]
          simp [hst]
        · rw [F.channels, hch]
        · rw [F.writer, ← hs2]
          simp [hst]
        · rw [F.writes, ← hs2]
          simp [hst]
        · intro b hb
          rw [F.others b hb, ← hs2]
          simp [hst, Function.update_noteq hb]
        · intro q
          rw [F.names q, hheap]
          exact fanLoop_name host next s.channels s.toMem q
        · intro q hr
          apply F.robust q
          rw [hheap]
          exact fanLoop_robust host next s.channels s.toMem q hr
        · intro f hf
          rcases List.mem_cons.mp hf with hf | hf
          · subst hf
            exact ⟨rfl, hpre⟩
          · rw [← hch]
            exact F.registered f hf
        · intro h
          obtain ⟨h1, h2, h3⟩ := F.whenDone h
          refine ⟨h1, ?_, ?_⟩
          · simp [h2, hp2, hq]
          · intro f hf
            rcases List.mem_cons.mp hf with hf | hf
            · subst hf
              exact hcalled
            · exact h3 f hf
        · intro h
          obtain ⟨l1, r, l2, h1, h2, h3, h4⟩ := F.whenRaised h
          refine ⟨next :: l1, r, l2, ?_, h2, ?_, ?_⟩
          · rw [hq, ← hp2, h1]
            rfl
          · simp [h3]
          · intro f hf
            have hne : new2 ≠ [] := by
              intro hnil
              rw [hnil] at h3
              simp at h3
            rw [List.dropLast_cons_of_ne_nil hne] at hf
            rcases List.mem_cons.mp hf with hf | hf
            · subst hf
              exact hcalled
            · exact h4 f hf
        · intro hall
          apply F.completes
          intro e he
          rw [hch] at he
          rw [hheap]
          exact fanLoop_robust host next s.channels s.toMem e.2 (hall e he)

theorem flush_spec (host : Host) (a : Nat) (s : Sys) :
    ∃ new, Flushed host a s (AsyncLogWriter.flush host a s) new :=
  flushLoop_spec host a _ s (Nat.le_refl _)

/-! ## The map of channels -/

theorem key_eq_of_not_lt {k k1 : String} (h1 : ¬ k.toList < k1.toList)
    (h2 : ¬ k1.toList < k.toList) : k1 = k := by
  rcases lt_trichotomy k.toList k1.toList with h | h | h
  · exact absurd h h1
  · exact (String.ext h).symm
  · exact absurd h h2

theorem key_ne_of_lt {k k1 : String} (h : k.toList < k1.toList) : k1 ≠ k := by
  intro hk
  rw [hk] at h
  exact lt_irrefl _ h

theorem mapAssign_cases (k : String) (v : Nat) (k1 : String) (v1 : Nat)
    (rest : List (String × Nat)) :
    (k.toList < k1.toList ∧ mapAssign k v ((k1, v1) :: rest) = (k, v) :: (k1, v1) :: rest) ∨
    (k1.toList < k.toList ∧
      mapAssign k v ((k1, v1) :: rest) = (k1, v1) :: mapAssign k v rest) ∨
    (k1 = k ∧ mapAssign k v ((k1, v1) :: rest) = (k, v) :: rest) := by
  simp only [mapAssign]
  split_ifs with h1 h2
  · exact Or.inl ⟨h1, rfl⟩
  · exact Or.inr (Or.inl ⟨h2, rfl⟩)
  · have hk := key_eq_of_not_lt h1 h2
    exact Or.inr (Or.inr ⟨hk, by rw [hk]⟩)

theorem mem_mapAssign (k : String) (v : Nat) (l : List (String × Nat)) (hl : Ordered l)
    (e : String × Nat) :
    e ∈ mapAssign k v l ↔ e = (k, v) ∨ (e ∈ l ∧ e.1 ≠ k) := by
  induction l with
  | nil => simp [mapAssign]
  | cons x rest ih =>
    obtain ⟨k1, v1⟩ := x
    have hl2 := List.pairwise_cons.mp hl
    have hhead : ∀ y ∈ rest, k1.toList < y.1.toList := hl2.1
    rcases mapAssign_cases k v k1 v1 rest with ⟨h, heq⟩ | ⟨h, heq⟩ | ⟨h, heq⟩
    · rw [heq]
      constructor
      · intro he
        rcases List.mem_cons.mp he with he | he
        · exact Or.inl he
        · refine Or.inr ⟨he, ?_⟩
          rcases List.mem_cons.mp he with he | he
          · rw [he]
            exact key_ne_of_lt h
          · exact key_ne_of_lt (lt_trans h (hhead e he))
      · rintro (he | ⟨he, _⟩)
        · rw [he]
          exact List.mem_cons_self _ _
        · exact List.mem_cons_of_mem _ he
    · rw [heq, List.mem_cons, ih hl2.2, List.mem_cons]
      have hne : k ≠ k1 := key_ne_of_lt h
      constructor
      · rintro (he | he | ⟨he, hk⟩)
        · refine Or.inr ⟨Or.inl he, ?_⟩
          rw [he]
          exact fun hk => hne hk.symm
        · exact Or.inl he
        · exact Or.inr ⟨Or.inr he, hk⟩
      · rintro (he | ⟨he | he, hk⟩)
        · exact Or.inr (Or.inl he)
        · exact Or.inl he
        · exact Or.inr (Or.inr ⟨he, hk⟩)
    · rw [heq, List.mem_cons, List.mem_cons]
      subst h
      constructor
      · rintro (he | he)
        · exact Or.inl he
        · exact Or.inr ⟨Or.inr he, key_ne_of_lt (hhead e he)⟩
      · rintro (he | ⟨he | he, hk⟩)
        · exact Or.inl he
        · rw [he] at hk
          exact absurd rfl hk
        · exact Or.inr he

theorem mapAssign_ordered (k : String) (v : Nat) (l : List (String × Nat)) (hl : Ordered l) :
    Ordered (mapAssign k v l) := by
  induction l with
  | nil => simp [mapAssign, Ordered]
  | cons x rest ih =>
    obtain ⟨k1, v1⟩ := x
    have hl2 := List.pairwise_cons.mp hl
    have hhead : ∀ y ∈ rest, k1.toList < y.1.toList := hl2.1
    rcases mapAssign_cases k v k1 v1 rest with ⟨h, heq⟩ | ⟨h, heq⟩ | ⟨h, heq⟩
    · rw [heq]
      refine List.pairwise_cons.mpr ⟨?_, hl⟩
      intro y hy
      rcases List.mem_cons.mp hy with hy | hy
      · rw [hy]
        exact h
      · exact lt_trans h (hhead y hy)
    · rw [heq]
      refine List.pairwise_cons.mpr ⟨?_, ih hl2.2⟩
      intro y hy
      rcases (mem_mapAssign k v rest hl2.2 y).mp hy with hy | ⟨hy, _⟩
      · rw [hy]
        exact h
      · exact hhead y hy
    · rw [heq]
      subst h
      exact List.pairwise_cons.mpr ⟨hhead, hl2.2⟩

theorem mapAssign_length (k : String) (v : Nat) (l : List (String × Nat))
    (hk : ∃ e ∈ l, e.1 = k) (hl : Ordered l) :
    (mapAssign k v l).length = l.length := by
  induction l with
  | nil =>
    obtain ⟨e, he, _⟩ := hk
    simp at he
  | cons x rest ih =>
    obtain ⟨k1, v1⟩ := x
    have hl2 := List.pairwise_cons.mp hl
    have hhead : ∀ y ∈ rest, k1.toList < y.1.toList := hl2.1
    obtain ⟨e, he, hek⟩ := hk
    rcases mapAssign_cases k v k1 v1 rest with ⟨h, heq⟩ | ⟨h, heq⟩ | ⟨h, heq⟩
    · exfalso
      rcases List.mem_cons.mp he with he | he
      · rw [he] at hek
        exact key_ne_of_lt h hek
      · exact key_ne_of_lt (lt_trans h (hhead e he)) hek
    · rw [heq]
      simp only [List.length_cons, add_left_inj]
      apply ih _ hl2.2
      rcases List.mem_cons.mp he with he | he
      · rw [he] at hek
        exact absurd hek.symm (key_ne_of_lt h)
      · exact ⟨e, he, hek⟩
    · rw [heq]
      simp

theorem mem_mapErase (k : String) (l : List (String × Nat)) (hl : Ordered l)
    (e : String × Nat) :
    e ∈ mapErase k l ↔ e ∈ l ∧ e.1 ≠ k := by
  induction l with
  | nil => simp [mapErase]
  | cons x rest ih =>
    obtain ⟨k1, v1⟩ := x
    have hl2 := List.pairwise_cons.mp hl
    have hhead : ∀ y ∈ rest, k1.toList < y.1.toList := hl2.1
    simp only [mapErase]
    split_ifs with h
    · subst h
      constructor
      · intro he
        exact ⟨List.mem_cons_of_mem _ he, key_ne_of_lt (hhead e he)⟩
      · rintro ⟨he, hk⟩
        rcases List.mem_cons.mp he with he | he
        · rw [he] at hk
          exact absurd rfl hk
        · exact he
    · rw [List.mem_cons, ih hl2.2, List.mem_cons]
      constructor
      · rintro (he | ⟨he, hk⟩)
        · refine ⟨Or.inl he, ?_⟩
          rw [he]
          exact h
        · exact ⟨Or.inr he, hk⟩
      · rintro ⟨he | he, hk⟩
        · exact Or.inl he
        · exact Or.inr ⟨he, hk⟩

theorem mapErase_ordered (k : String) (l : List (String × Nat)) (hl : Ordered l) :
    Ordered (mapErase k l) := by
  induction l with
  | nil => simp [mapErase, Ordered]
  | cons x rest ih =>
    obtain ⟨k1, v1⟩ := x
    have hl2 := List.pairwise_cons.mp hl
    simp only [mapErase]
    split_ifs with h
    · exact hl2.2
    · refine List.pairwise_cons.mpr ⟨?_, ih hl2.2⟩
      intro y hy
      exact hl2.1 y ((mem_mapErase k rest hl2.2 y).mp hy).1

theorem Ordered.eq_of_key_eq {l : List (String × Nat)} (hl : Ordered l) {e1 e2 : String × Nat}
    (h1 : e1 ∈ l) (h2 : e2 ∈ l) (hk : e1.1 = e2.1) : e1 = e2 := by
  induction l with
  | nil => simp at h1
  | cons x rest ih =>
    have hl2 := List.pairwise_cons.mp hl
    rcases List.mem_cons.mp h1 with h1 | h1 <;> rcases List.mem_cons.mp h2 with h2 | h2
    · rw [h1, h2]
    · exfalso
      have := hl2.1 e2 h2
      rw [← h1, hk] at this
      exact lt_irrefl _ this
    · exfalso
      have := hl2.1 e1 h1
      rw [← h2, hk] at this
      exact lt_irrefl _ this
    · exact ih hl2.2 h1 h2

theorem targets_nodup (heap : Nat → Channel) (l : List (String × Nat)) (hl : Ordered l)
    (hk : Keyed heap l) : (targets l).Nodup := by
  induction l with
  | nil => simp [targets]
  | cons x rest ih =>
    have hl2 := List.pairwise_cons.mp hl
    have hk2 : Keyed heap rest := fun e he => hk e (List.mem_cons_of_mem _ he)
    simp only [targets, List.map_cons, List.nodup_cons]
    refine ⟨?_, ih hl2.2 hk2⟩
    intro hmem
    obtain ⟨e, he, hex⟩ := List.mem_map.mp hmem
    have h1 := hk e (List.mem_cons_of_mem _ he)
    have h2 := hk x (List.mem_cons_self _ _)
    have := hl2.1 e he
    rw [← h1, ← h2, hex] at this
    exact lt_irrefl _ this

/-! ## The registry invariant -/

theorem WF.add {s : Sys} (h : WF s) (p : Nat) : WF (Logger.add p s) := by
  refine ⟨mapAssign_ordered _ _ _ h.1, ?_⟩
  intro e he
  rcases (mem_mapAssign _ _ _ h.1 e).mp he with he | ⟨he, _⟩
  · rw [he]
    rfl
  · exact h.2 e he

theorem WF.remove {s : Sys} (h : WF s) (name : String) : WF (Logger.remove name s) := by
  refine ⟨mapErase_ordered _ _ h.1, ?_⟩
  intro e he
  exact h.2 e ((mem_mapErase _ _ h.1 e).mp he).1

theorem WF.write {s : Sys} (h : WF s) (a : Nat) (r : LogInfo) :
    WF (AsyncLogWriter.write a r s) := h

theorem WF.flushed {host : Host} {a : Nat} {s : Sys} {o : Outcome Sys} {new : List Fan}
    (h : WF s) (F : Flushed host a s o new) : WF o.state := by
  refine ⟨by rw [F.channels]; exact h.1, ?_⟩
  intro e he
  rw [F.channels] at he
  rw [F.names]
  exact h.2 e he

theorem WF.nodup_targets {s : Sys} (h : WF s) : (targets s.channels).Nodup :=
  ZL.Util.targets_nodup s.heap s.channels h.1 h.2

theorem WF.key_of_target {s : Sys} (h : WF s) {p : Nat} (hp : p ∈ targets s.channels) :
    ((s.heap p).name, p) ∈ s.channels := by
  obtain ⟨e, he, hep⟩ := List.mem_map.mp hp
  have := h.2 e he
  rw [hep] at this
  rw [this, ← hep]
  exact he

theorem mem_targets_add {s : Sys} (h : WF s) (q p : Nat) :
    p ∈ targets (Logger.add q s).channels ↔
      p = q ∨ (p ∈ targets s.channels ∧ (s.heap p).name ≠ (s.heap q).name) := by
  constructor
  · intro hp
    obtain ⟨e, he, hep⟩ := List.mem_map.mp hp
    rcases (mem_mapAssign _ _ _ h.1 e).mp he with he | ⟨he, hk⟩
    · left
      rw [← hep, he]
    · right
      refine ⟨List.mem_map.mpr ⟨e, he, hep⟩, ?_⟩
      rw [← hep, h.2 e he]
      exact hk
  · rintro (hp | ⟨hp, hk⟩)
    · rw [hp]
      exact List.mem_map.mpr ⟨_, (mem_mapAssign _ _ _ h.1 _).mpr (Or.inl rfl), rfl⟩
    · exact List.mem_map.mpr
        ⟨_, (mem_mapAssign _ _ _ h.1 _).mpr (Or.inr ⟨h.key_of_target hp, hk⟩), rfl⟩

theorem mem_targets_remove {s : Sys} (h : WF s) (name : String) (p : Nat) :
    p ∈ targets (Logger.remove name s).channels ↔
      p ∈ targets s.channels ∧ (s.heap p).name ≠ name := by
  constructor
  · intro hp
    obtain ⟨e, he, hep⟩ := List.mem_map.mp hp
    obtain ⟨he, hk⟩ := (mem_mapErase _ _ h.1 e).mp he
    refine ⟨List.mem_map.mpr ⟨e, he, hep⟩, ?_⟩
    rw [← hep, h.2 e he]
    exact hk
  · rintro ⟨hp, hk⟩
    exact List.mem_map.mpr ⟨_, (mem_mapErase _ _ h.1 _).mpr ⟨h.key_of_target hp, hk⟩, rfl⟩

theorem brokenSys_WF : WF brokenSys := by
  unfold WF Ordered Keyed
  decide

theorem freshSys_WF : WF freshSys := by
  unfold WF Ordered Keyed
  decide

theorem consoleSys_WF : WF consoleSys := by
  unfold WF Ordered Keyed
  decide

/-! ## What a channel observes -/

theorem observed_append (p : Nat) (l1 l2 : List Fan) :
    observed p (l1 ++ l2) = observed p l1 ++ observed p l2 := by
  simp [observed, List.flatMap_append]

theorem observed_of_count_one (p : Nat) (l : List Fan)
    (h : ∀ f ∈ l, f.called.count p = 1) : observed p l = l.map Fan.record := by
  induction l with
  | nil => rfl
  | cons f rest ih =>
    have h1 := h f (List.mem_cons_self _ _)
    have h2 := ih (fun g hg => h g (List.mem_cons_of_mem _ hg))
    simp only [observed, List.flatMap_cons, List.map_cons] at h2 ⊢
    rw [h1, h2]
    rfl

theorem observed_isPrefix (p : Nat) (new : List Fan) (q : List LogInfo)
    (hle : ∀ f ∈ new, f.called.count p ≤ 1)
    (hinit : ∀ f ∈ new.dropLast, f.called.count p = 1)
    (hrec : new.map Fan.record <+: q) : observed p new <+: q := by
  by_cases hnil : new = []
  · subst hnil
    exact List.nil_prefix
  · have hsplit := List.dropLast_append_getLast hnil
    have hlast := hle (new.getLast hnil) (List.getLast_mem hnil)
    have hobs : observed p new
        = new.dropLast.map Fan.record
          ++ List.replicate ((new.getLast hnil).called.count p) (new.getLast hnil).record := by
      conv_lhs => rw [← hsplit]
      rw [observed_append, observed_of_count_one p _ hinit]
      simp [observed]
    have hmap : new.map Fan.record
        = new.dropLast.map Fan.record ++ [(new.getLast hnil).record] := by
      conv_lhs => rw [← hsplit]
      simp
    rcases Nat.le_one_iff_eq_zero_or_eq_one.mp hlast with h0 | h1
    · rw [hobs, h0]
      simp only [List.replicate_zero, List.append_nil]
      refine List.IsPrefix.trans ?_ hrec
      rw [hmap]
      exact List.prefix_append _ _
    · rw [hobs, h1, List.replicate_one, ← hmap]
      exact hrec

theorem count_le_one_of_isPrefix_nodup {l1 l2 : List Nat} (h : l1 <+: l2) (hn : l2.Nodup)
    (p : Nat) : l1.count p ≤ 1 :=
  List.nodup_iff_count_le_one.mp (hn.sublist h.sublist) p

/-! ## C5: where `Logger::write` delivers -/

/-- C5. `Logger::write` is the delivery entry point: the terminal `endl` of a builder
that owns a record hands the record (with the line end appended) to `Logger::write`.
With no writer installed `Logger::write` runs one fan-out over the registered channels
and queues nothing (the fan-out calls channels of the map in key order, all of them
when none throws). After `setWriter(w)` with a non-null `w`, `Logger::write` returns
having put the record at the tail of the queue of `w` and nothing else: no fan-out runs,
the channels and the world are unchanged, and the other queues are unchanged.
`setWriter` with a second non-null writer makes it the target, the first one no longer
receives; `setWriter` with a null pointer changes nothing. -/
theorem delivery_routing (host : Host) (s : Sys) (r : LogInfo) :
    (∀ rec : LogInfo,
      (LogInfoMaker.endl host ⟨some rec⟩ s).state.2
        = (Logger.write host { rec with message := rec.message ++ "\n" } s).state) ∧
    (s.writer = none →
      (Logger.write host r s).state.fans
          = s.fans ++ [⟨r, targets s.channels, (fanLoop host r s.channels s.toMem).2⟩] ∧
        (fanLoop host r s.channels s.toMem).2 <+: targets s.channels ∧
        ((Logger.write host r s).isDone = true →
          (fanLoop host r s.channels s.toMem).2 = targets s.channels) ∧
        (Logger.write host r s).state._pending = s._pending ∧
        (Logger.write host r s).state.writes = s.writes ++ [r]) ∧
    (∀ w : Nat,
      let s1 := Logger.setWriter (some w) s
      s1.writer = some w ∧
      ∃ s2, Logger.write host r s1 = .done s2 ∧
        s2._pending w = s._pending w ++ [r] ∧
        (∀ b, b ≠ w → s2._pending b = s._pending b) ∧
        s2.fans = s.fans ∧ s2.toMem = s.toMem ∧ s2.channels = s.channels ∧
        s2.writer = some w ∧ s2.writes = s.writes ++ [r]) ∧
    (∀ w1 w2 : Nat,
      let s1 := Logger.setWriter (some w2) (Logger.setWriter (some w1) s)
      s1.writer = some w2 ∧
      ∃ s2, Logger.write host r s1 = .done s2 ∧
        s2._pending w2 = s._pending w2 ++ [r] ∧
        (w1 ≠ w2 → s2._pending w1 = s._pending w1) ∧ s2.fans = s.fans) ∧
    Logger.setWriter none s = s := by
  refine ⟨?_, ?_, ?_, ?_, rfl⟩
  · intro rec
    simp only [LogInfoMaker.endl]
    cases Logger.write host { rec with message := rec.message ++ "\n" } s <;> rfl
  · intro hw
    have hlw : Logger.write host r s = fanOut host r { s with writes := s.writes ++ [r] } := by
      simp only [Logger.write, hw]
    rw [hlw, fanOut_state, fanOut_isDone]
    refine ⟨rfl, fanLoop_called_isPrefix host r s.channels s.toMem, ?_, rfl, rfl⟩
    intro hd
    exact fanLoop_called_of_done host r s.channels s.toMem hd
  · intro w s1
    refine ⟨rfl, _, rfl, ?_, ?_, rfl, rfl, rfl, rfl, rfl⟩
    · simp [AsyncLogWriter.write, s1, Logger.setWriter]
    · intro b hb
      simp [AsyncLogWriter.write, s1, Logger.setWriter, Function.update_noteq hb]
  · intro w1 w2 s1
    refine ⟨rfl, _, rfl, ?_, ?_, rfl⟩
    · simp [AsyncLogWriter.write, s1, Logger.setWriter]
    · intro hne
      simp [AsyncLogWriter.write, s1, Logger.setWriter, Function.update_noteq hne]

/-! ## C2: first in, first out -/

theorem foldl_write_pending (a : Nat) (rs : List LogInfo) :
    ∀ s : Sys,
      let s1 := rs.foldl (fun st r => AsyncLogWriter.write a r st) s
      s1._pending a = s._pending a ++ rs ∧ s1.channels = s.channels ∧ s1.fans = s.fans ∧
        s1.heap = s.heap := by
  induction rs with
  | nil => intro s; simp
  | cons r rest ih =>
    intro s
    obtain ⟨h1, h2, h3, h4⟩ := ih (AsyncLogWriter.write a r s)
    simp only [List.foldl_cons]
    refine ⟨?_, h2, h3, h4⟩
    rw [h1]
    simp [AsyncLogWriter.write]

/-- C2. For every state and every list of records `R1..Rn` enqueued in that order by
`AsyncLogWriter::write`: each enqueue puts its record at the tail of `_pending`, so the
queue is the old queue followed by `R1..Rn`; `flush` then fans out the queued records
from the head on, in queue order (the records of its fan-outs are an initial part of
the queue, and each registered channel observes an initial part of the queue in that
order); when `flush` returns the queue is empty, every queued record was fanned out
once, in order, to every registered channel, and each registered channel has observed
exactly the queue in its order; when a channel throws, the record being written is
still at the head of the queue. -/
theorem fifo_order (host : Host) (a : Nat) (s : Sys) (rs : List LogInfo) :
    (let s1 := rs.foldl (fun st r => AsyncLogWriter.write a r st) s
    let o := AsyncLogWriter.flush host a s1
    (∀ r, (AsyncLogWriter.write a r s)._pending a = s._pending a ++ [r]) ∧
    s1._pending a = s._pending a ++ rs ∧
    ∃ new, o.state.fans = s.fans ++ new ∧
      new.map Fan.record <+: s._pending a ++ rs ∧
      (∀ f ∈ new, f.registered = targets s.channels ∧ f.called <+: f.registered) ∧
      (WF s → ∀ p ∈ targets s.channels, observed p new <+: s._pending a ++ rs) ∧
      (o.isDone = true →
        o.state._pending a = [] ∧ new.map Fan.record = s._pending a ++ rs ∧
        (∀ f ∈ new, f.called = targets s.channels) ∧
        (WF s → ∀ p ∈ targets s.channels, observed p new = s._pending a ++ rs)) ∧
      (o.isDone = false →
        ∃ l1 r l2, s._pending a ++ rs = l1 ++ r :: l2 ∧ o.state._pending a = r :: l2 ∧
          new.map Fan.record = l1 ++ [r])) := by
  intro s1 o
  obtain ⟨hp, hc, hf, hh⟩ := foldl_write_pending a rs s
  obtain ⟨new, F⟩ := flush_spec host a s1
  have hreg : ∀ f ∈ new, f.registered = targets s.channels ∧ f.called <+: f.registered := by
    intro f hf
    have := F.registered f hf
    rw [hc] at this
    exact this
  have hrec : new.map Fan.record <+: s._pending a ++ rs := by
    cases hd : o.isDone with
    | true =>
      rw [(F.whenDone hd).2.1, hp]
    | false =>
      obtain ⟨l1, r, l2, h1, _, h3, _⟩ := F.whenRaised hd
      rw [h3, ← hp, h1]
      exact (List.prefix_append_right_inj l1).mpr ((List.prefix_cons_inj r).mpr List.nil_prefix)
  have hle : WF s → ∀ p, ∀ f ∈ new, f.called.count p ≤ 1 := by
    intro hwf p f hf
    obtain ⟨h1, h2⟩ := hreg f hf
    exact count_le_one_of_isPrefix_nodup h2 (by rw [h1]; exact hwf.nodup_targets) p
  refine ⟨fun r => by simp [AsyncLogWriter.write], hp, new, ?_, hrec, hreg, ?_, ?_, ?_⟩
  · rw [F.fans, hf]
  · intro hwf p hpt
    apply observed_isPrefix p new _ (hle hwf p) _ hrec
    intro f hf
    have hf2 : f ∈ new := List.dropLast_subset _ hf
    have hcr : f.called = f.registered := by
      cases hd : o.isDone with
      | true => exact (F.whenDone hd).2.2 f hf2
      | false =>
        obtain ⟨_, _, _, _, _, _, h4⟩ := F.whenRaised hd
        exact h4 f hf
    rw [hcr, (hreg f hf2).1]
    exact List.count_eq_one_of_mem hwf.nodup_targets hpt
  · intro hd
    obtain ⟨h1, h2, h3⟩ := F.whenDone hd
    have hcall : ∀ f ∈ new, f.called = targets s.channels := by
      intro f hf
      rw [h3 f hf, (hreg f hf).1]
    refine ⟨h1, by rw [h2, hp], hcall, ?_⟩
    intro hwf p hpt
    rw [observed_of_count_one p new, h2, hp]
    intro f hf
    rw [hcall f hf]
    exact List.count_eq_one_of_mem hwf.nodup_targets hpt
  · intro hd
    obtain ⟨l1, r, l2, h1, h2, h3, _⟩ := F.whenRaised hd
    exact ⟨l1, r, l2, by rw [← hp, h1], h2, h3⟩

/-! ## C8: adding a channel under a name that is taken -/

/-- C8. For every registry state (the invariant of `Logger::add` holding) and every two
distinct channel objects `d` and `d2` with the same name: after `add(d)` and then
`add(d2)` the map is as long as after `add(d)` alone, it holds `d2` under the name and
every entry under the name is that one, the name occurs once among the keys, and a
fan-out that follows never calls `write` on `d` and, when it runs to its end, calls
`write` on `d2` exactly once. -/
theorem add_same_name_replaces (host : Host) (s : Sys) (d d2 : Nat) (r : LogInfo)
    (hwf : WF s) (hname : (s.heap d2).name = (s.heap d).name) (hne : d ≠ d2) :
    (let n := (s.heap d).name
    let s1 := Logger.add d s
    let s2 := Logger.add d2 s1
    let fan : Fan := ⟨r, targets s2.channels, (fanLoop host r s2.channels s2.toMem).2⟩
    s2.channels.length = s1.channels.length ∧
    (n, d2) ∈ s2.channels ∧
    (∀ e ∈ s2.channels, e.1 = n → e = (n, d2)) ∧
    (s2.channels.map Prod.fst).count n = 1 ∧
    (fanOut host r s2).state.fans = s2.fans ++ [fan] ∧
    d ∉ fan.called ∧
    ((fanOut host r s2).isDone = true → fan.called.count d2 = 1)) := by
  intro n s1 s2 fan
  have hwf1 : WF s1 := hwf.add d
  have hwf2 : WF s2 := hwf1.add d2
  have hn2 : (s1.heap d2).name = n := hname
  have hch2 : s2.channels = mapAssign n d2 s1.channels := by
    show mapAssign (s1.heap d2).name d2 s1.channels = _
    rw [hn2]
  have hmem1 : (n, d) ∈ s1.channels := (mem_mapAssign _ _ _ hwf.1 _).mpr (Or.inl rfl)
  have hmem2 : (n, d2) ∈ s2.channels := by
    rw [hch2]
    exact (mem_mapAssign _ _ _ hwf1.1 _).mpr (Or.inl rfl)
  have hd : d ∉ targets s2.channels := by
    intro hd
    rcases (mem_targets_add hwf1 d2 d).mp hd with h | ⟨_, h⟩
    · exact hne h
    · exact h hname.symm
  have hd2 : d2 ∈ targets s2.channels := List.mem_map.mpr ⟨_, hmem2, rfl⟩
  refine ⟨?_, hmem2, ?_, ?_, ?_, ?_, ?_⟩
  · rw [hch2]
    exact mapAssign_length _ _ _ ⟨(n, d), hmem1, rfl⟩ hwf1.1
  · intro e he hk
    exact hwf2.1.eq_of_key_eq he hmem2 hk
  · apply List.count_eq_one_of_mem
    · have : List.Pairwise (fun x y : String × Nat => x.1 ≠ y.1) s2.channels :=
        hwf2.1.imp (fun {x y} hxy heq => by
          rw [heq] at hxy
          exact lt_irrefl _ hxy)
      exact List.pairwise_map.mpr this
    · exact List.mem_map.mpr ⟨_, hmem2, rfl⟩
  · rw [fanOut_state]
  · intro hc
    exact hd ((fanLoop_called_isPrefix host r s2.channels s2.toMem).subset hc)
  · intro hdone
    rw [fanOut_isDone] at hdone
    show List.count d2 (fanLoop host r s2.channels s2.toMem).2 = 1
    rw [fanLoop_called_of_done host r _ _ hdone]
    exact List.count_eq_one_of_mem hwf2.nodup_targets hd2

/-- C8 at the fresh registry, for the two console channels named `b` at the addresses
2 and 3. -/
theorem add_same_name_replaces_witness :
    WF freshSys ∧ (freshSys.heap 3).name = (freshSys.heap 2).name ∧ (2 : Nat) ≠ 3 ∧
    (Logger.add 3 (Logger.add 2 freshSys)).channels.length
      = (Logger.add 2 freshSys).channels.length ∧
    ("b", 3) ∈ (Logger.add 3 (Logger.add 2 freshSys)).channels :=
  ⟨freshSys_WF, by decide, by decide,
    (add_same_name_replaces plainHost freshSys 2 3 demoRecord freshSys_WF (by decide)
      (by decide)).1,
    (add_same_name_replaces plainHost freshSys 2 3 demoRecord freshSys_WF (by decide)
      (by decide)).2.1⟩

/-! ## C9: the registry that counts is the one at the drain -/

/-- C9. For every state in which the registry invariant holds and every record `r`
enqueued in the writer at `a`: a `flush` fans every record out over the map as it is
when the flush runs (each fan-out calls channels of that map only, in key order, and
all of them when it does not throw). So when a channel registered at the enqueue is
removed before the drain, no fan-out of the drain calls its `write`, and `r` is among
the records drained when the flush returns; and when a channel is added before the
drain, it is in the map of every fan-out of the drain and, when the flush returns, its
`write` was called once for every queued record, `r` included. -/
theorem membership_at_drain (host : Host) (a : Nat) (s : Sys) (r : LogInfo) (hwf : WF s) :
    (∃ new, (AsyncLogWriter.flush host a (AsyncLogWriter.write a r s)).state.fans = s.fans ++ new ∧
      (∀ f ∈ new, f.registered = targets s.channels ∧ f.called <+: f.registered) ∧
      ((AsyncLogWriter.flush host a (AsyncLogWriter.write a r s)).isDone = true →
        new.map Fan.record = s._pending a ++ [r] ∧ ∀ f ∈ new, f.called = targets s.channels)) ∧
    (∀ name p, (name, p) ∈ s.channels →
      let s1 := Logger.remove name (AsyncLogWriter.write a r s)
      ∃ new, (AsyncLogWriter.flush host a s1).state.fans = s.fans ++ new ∧
        (∀ f ∈ new, f.registered = targets s1.channels ∧ f.called <+: f.registered ∧
          p ∉ f.called) ∧
        ((AsyncLogWriter.flush host a s1).isDone = true →
          new.map Fan.record = s._pending a ++ [r] ∧
          ∀ f ∈ new, f.called = targets s1.channels)) ∧
    (∀ q,
      let s1 := Logger.add q (AsyncLogWriter.write a r s)
      ∃ new, (AsyncLogWriter.flush host a s1).state.fans = s.fans ++ new ∧
        (∀ f ∈ new, f.registered = targets s1.channels ∧ f.called <+: f.registered ∧
          q ∈ f.registered) ∧
        ((AsyncLogWriter.flush host a s1).isDone = true →
          new.map Fan.record = s._pending a ++ [r] ∧
          ∀ f ∈ new, f.called = targets s1.channels ∧ f.called.count q = 1)) := by
  have hpend : ∀ s1 : Sys, s1._pending = (AsyncLogWriter.write a r s)._pending →
      s1._pending a = s._pending a ++ [r] := by
    intro s1 h
    rw [h]
    simp [AsyncLogWriter.write]
  refine ⟨?_, ?_, ?_⟩
  · obtain ⟨new, F⟩ := flush_spec host a (AsyncLogWriter.write a r s)
    refine ⟨new, F.fans, F.registered, ?_⟩
    intro hd
    obtain ⟨_, h2, h3⟩ := F.whenDone hd
    refine ⟨by rw [h2]; exact hpend _ rfl, ?_⟩
    intro f hf
    rw [h3 f hf, (F.registered f hf).1]
    rfl
  · intro name p hp s1
    have hwf1 : WF (AsyncLogWriter.write a r s) := hwf.write a r
    obtain ⟨new, F⟩ := flush_spec host a s1
    have hnot : p ∉ targets s1.channels := by
      intro hmem
      have h1 := (mem_targets_remove hwf1 name p).mp hmem
      exact h1.2 (hwf.2 (name, p) hp)
    refine ⟨new, F.fans, ?_, ?_⟩
    · intro f hf
      obtain ⟨h1, h2⟩ := F.registered f hf
      refine ⟨h1, h2, ?_⟩
      intro hc
      rw [h1] at h2
      exact hnot (h2.subset hc)
    · intro hd
      obtain ⟨_, h2, h3⟩ := F.whenDone hd
      refine ⟨by rw [h2]; exact hpend _ rfl, ?_⟩
      intro f hf
      rw [h3 f hf, (F.registered f hf).1]
  · intro q s1
    have hwf1 : WF (AsyncLogWriter.write a r s) := hwf.write a r
    have hwf2 : WF s1 := hwf1.add q
    obtain ⟨new, F⟩ := flush_spec host a s1
    have hq : q ∈ targets s1.channels := (mem_targets_add hwf1 q q).mpr (Or.inl rfl)
    refine ⟨new, F.fans, ?_, ?_⟩
    · intro f hf
      obtain ⟨h1, h2⟩ := F.registered f hf
      exact ⟨h1, h2, by rw [h1]; exact hq⟩
    · intro hd
      obtain ⟨_, h2, h3⟩ := F.whenDone hd
      refine ⟨by rw [h2]; exact hpend _ rfl, ?_⟩
      intro f hf
      have hc : f.called = targets s1.channels := by rw [h3 f hf, (F.registered f hf).1]
      exact ⟨hc, by rw [hc]; exact List.count_eq_one_of_mem hwf2.nodup_targets hq⟩

/-- C9 at `brokenSys`: the record is enqueued, the file channel `a` is removed, and the
drain does not call it. -/
theorem membership_at_drain_witness :
    WF brokenSys ∧
    ∃ new, (AsyncLogWriter.flush plainHost 9
        (Logger.remove "a" (AsyncLogWriter.write 9 demoRecord brokenSys))).state.fans
          = brokenSys.fans ++ new ∧
      ∀ f ∈ new, 1 ∉ f.called := by
  refine ⟨brokenSys_WF, ?_⟩
  obtain ⟨new, h1, h2, _⟩ :=
    (membership_at_drain plainHost 9 brokenSys demoRecord brokenSys_WF).2.1 "a" 1 (by decide)
  exact ⟨new, h1, fun f hf => (h2 f hf).2.2⟩

/-! ## C6: a channel that throws -/

/-- C6, the claim as stated fails. With the file channel `a` (empty path) and the
console channel `b` registered, the fan-out of a record throws at `a`: `write` of `b`
is never called and nothing reaches `std::cout`; the exception leaves
`Logger::write`, `AsyncLogWriter::realWrite` and `AsyncLogWriter::flush`, and after
the flush the record is still queued. -/
theorem failure_containment_counterexample :
    (Logger.write plainHost demoRecord brokenSys).isDone = false ∧
    (Logger.write plainHost demoRecord brokenSys).state.fans = [⟨demoRecord, [1, 2], [1]⟩] ∧
    (Logger.write plainHost demoRecord brokenSys).state.world.cout = "" ∧
    (AsyncLogWriter.realWrite plainHost demoRecord brokenSys).isDone = false ∧
    (AsyncLogWriter.flush plainHost 9 (AsyncLogWriter.write 9 demoRecord brokenSys)).isDone
      = false ∧
    (AsyncLogWriter.flush plainHost 9 (AsyncLogWriter.write 9 demoRecord brokenSys)).state.fans
      = [⟨demoRecord, [1, 2], [1]⟩] ∧
    (AsyncLogWriter.flush plainHost 9
      (AsyncLogWriter.write 9 demoRecord brokenSys)).state._pending 9 = [demoRecord] := by
  decide

/-- C6 as amended. For every record and every registry: when a registered channel's
`write` throws for the record and no channel before it in key order does, the fan-out
calls the channels before it and then it, and stops: the channels after it are not
called (the registry invariant holding), and the exception leaves
`AsyncLogWriter::realWrite`, the synchronous loop of `Logger::write`, and
`AsyncLogWriter::flush`, which leaves the record at the head of the queue. -/
theorem failure_propagates (host : Host) (s : Sys) (r : LogInfo)
    (pre : List (String × Nat)) (k : String) (p : Nat) (post : List (String × Nat))
    (hch : s.channels = pre ++ (k, p) :: post)
    (hpre : ∀ e ∈ pre, (s.heap e.2).fails host r = false)
    (hp : (s.heap p).fails host r = true) :
    (let fan : Fan := ⟨r, targets s.channels, targets pre ++ [p]⟩
    (AsyncLogWriter.realWrite host r s).isDone = false ∧
    (AsyncLogWriter.realWrite host r s).state.fans = s.fans ++ [fan] ∧
    (s.writer = none →
      (Logger.write host r s).isDone = false ∧
      (Logger.write host r s).state.fans = s.fans ++ [fan]) ∧
    (∀ a rest, s._pending a = r :: rest →
      (AsyncLogWriter.flush host a s).isDone = false ∧
      (AsyncLogWriter.flush host a s).state._pending a = r :: rest ∧
      (AsyncLogWriter.flush host a s).state.fans = s.fans ++ [fan]) ∧
    (WF s → ∀ e ∈ post, e.2 ∉ fan.called)) := by
  intro fan
  have hloop := fanLoop_raised host r pre k p post s.toMem hpre hp
  rw [← hch] at hloop
  have hdone : (fanOut host r s).isDone = false := by rw [fanOut_isDone]; exact hloop.1
  have hfans : (fanOut host r s).state.fans = s.fans ++ [fan] := by
    rw [fanOut_state]
    show s.fans ++ [_] = s.fans ++ [fan]
    rw [hloop.2]
  refine ⟨hdone, hfans, ?_, ?_, ?_⟩
  · intro hw
    have hlw : Logger.write host r s = fanOut host r { s with writes := s.writes ++ [r] } := by
      simp only [Logger.write, hw]
    rw [hlw, fanOut_isDone, fanOut_state]
    refine ⟨hloop.1, ?_⟩
    show s.fans ++ [_] = s.fans ++ [fan]
    rw [hloop.2]
  · intro a rest hq
    have hfl : ∃ what, AsyncLogWriter.flush host a s = .raised what (fanOut host r s).state := by
      simp only [AsyncLogWriter.flush, hq, List.length_cons, AsyncLogWriter.flushLoop,
        AsyncLogWriter.realWrite]
      cases hfo : fanOut host r s with
      | done x =>
        rw [hfo] at hdone
        exact Bool.noConfusion hdone
      | raised what x => exact ⟨what, rfl⟩
    obtain ⟨what, hfl⟩ := hfl
    rw [hfl]
    refine ⟨rfl, ?_, hfans⟩
    show (fanOut host r s).state._pending a = r :: rest
    rw [fanOut_state]
    exact hq
  · intro hwf e he hc
    have hnd := hwf.nodup_targets
    rw [hch] at hnd
    simp only [targets, List.map_append, List.map_cons] at hnd
    have hmem : e.2 ∈ List.map Prod.snd post := List.mem_map.mpr ⟨e, he, rfl⟩
    rw [List.nodup_append] at hnd
    obtain ⟨_, h2, h3⟩ := hnd
    rcases List.mem_append.mp hc with hc | hc
    · exact h3 hc (List.mem_cons_of_mem _ hmem)
    · simp only [List.mem_singleton] at hc
      rw [List.nodup_cons] at h2
      rw [hc] at hmem
      exact h2.1 hmem

/-- The amended C6 at `brokenSys`: the file channel `a` throws first, the console
channel `b` after it is not called. -/
theorem failure_propagates_witness :
    brokenSys.channels = [] ++ ("a", 1) :: [("b", 2)] ∧
    (brokenSys.heap 1).fails plainHost demoRecord = true ∧
    (AsyncLogWriter.realWrite plainHost demoRecord brokenSys).isDone = false ∧
    (AsyncLogWriter.realWrite plainHost demoRecord brokenSys).state.fans
      = brokenSys.fans ++ [⟨demoRecord, [1, 2], [1]⟩] :=
  ⟨rfl, by decide,
    (failure_propagates plainHost brokenSys demoRecord [] "a" 1 [("b", 2)] rfl
      (by simp) (by decide)).1,
    (failure_propagates plainHost brokenSys demoRecord [] "a" 1 [("b", 2)] rfl
      (by simp) (by decide)).2.1⟩

/-! ## C1: nothing is lost at shutdown -/

theorem enqueued_cons (st : Step) (rest : List Step) :
    enqueued (st :: rest) = enqueued [st] ++ enqueued rest := by
  cases st <;> rfl

/-- One step that returns: what it keeps and what it adds. -/
theorem step_inv (host : Host) (a : Nat) (st : Step) (s s1 : Sys) (hwf : WF s)
    (hrun : st.run host a s = .done s1) :
    WF s1 ∧ (∀ q, (s1.heap q).name = (s.heap q).name) ∧
    (∀ q, (s.heap q).robust host = true → (s1.heap q).robust host = true) ∧
    ∃ new, s1.fans = s.fans ++ new ∧
      new.map Fan.record ++ s1._pending a = s._pending a ++ enqueued [st] ∧
      (∀ f ∈ new, f.called = f.registered) ∧
      (∀ p ∈ targets s.channels, Stays s.heap p [st] →
        p ∈ targets s1.channels ∧ ∀ f ∈ new, f.called.count p = 1) := by
  cases st with
  | write r =>
    simp only [Step.run, Outcome.done.injEq] at hrun
    subst hrun
    refine ⟨hwf.write a r, fun _ => rfl, fun _ h => h, [], by simp [AsyncLogWriter.write], ?_,
      by simp, ?_⟩
    · simp [AsyncLogWriter.write, enqueued]
    · intro p hp _
      exact ⟨hp, by simp⟩
  | flush =>
    simp only [Step.run] at hrun
    obtain ⟨new, F⟩ := flush_spec host a s
    rw [hrun] at F
    obtain ⟨h1, h2, h3⟩ := F.whenDone rfl
    refine ⟨hwf.flushed F, F.names, F.robust, new, F.fans, ?_, h3, ?_⟩
    · show _ ++ s1._pending a = _
      have h1' : s1._pending a = [] := h1
      rw [h1', h2]
      simp [enqueued]
    · intro p hp _
      refine ⟨by rw [show s1.channels = s.channels from F.channels]; exact hp, ?_⟩
      intro f hf
      rw [h3 f hf, (F.registered f hf).1]
      exact List.count_eq_one_of_mem hwf.nodup_targets hp
  | add q =>
    simp only [Step.run, Outcome.done.injEq] at hrun
    subst hrun
    refine ⟨hwf.add q, fun _ => rfl, fun _ h => h, [], by simp [Logger.add], ?_, by simp, ?_⟩
    · simp [Logger.add, enqueued]
    · intro p hp hst
      refine ⟨?_, by simp⟩
      apply (mem_targets_add hwf q p).mpr
      by_cases hpq : p = q
      · exact Or.inl hpq
      · refine Or.inr ⟨hp, ?_⟩
        intro hn
        exact hpq (hst.2 q (List.mem_singleton.mpr rfl) hn.symm).symm
  | remove name =>
    simp only [Step.run, Outcome.done.injEq] at hrun
    subst hrun
    refine ⟨hwf.remove name, fun _ => rfl, fun _ h => h, [], by simp [Logger.remove], ?_,
      by simp, ?_⟩
    · simp [Logger.remove, enqueued]
    · intro p hp hst
      refine ⟨?_, by simp⟩
      apply (mem_targets_remove hwf name p).mpr
      exact ⟨hp, fun hn => hst.1 name (List.mem_singleton.mpr rfl) hn.symm⟩

theorem Stays.head {heap : Nat → Channel} {p : Nat} {st : Step} {rest : List Step}
    (h : Stays heap p (st :: rest)) : Stays heap p [st] := by
  refine ⟨fun name hm => h.1 name ?_, fun q hm => h.2 q ?_⟩
  · rw [List.mem_singleton.mp hm]
    exact List.mem_cons_self _ _
  · rw [List.mem_singleton.mp hm]
    exact List.mem_cons_self _ _

theorem Stays.tail {heap heap1 : Nat → Channel} {p : Nat} {st : Step} {rest : List Step}
    (h : Stays heap p (st :: rest)) (hn : ∀ q, (heap1 q).name = (heap q).name) :
    Stays heap1 p rest := by
  refine ⟨fun name hm => ?_, fun q hm => ?_⟩
  · rw [hn]
    exact h.1 name (List.mem_cons_of_mem _ hm)
  · rw [hn, hn]
    exact h.2 q (List.mem_cons_of_mem _ hm)

/-- A run of steps that returns: what it keeps and what it adds. -/
theorem runSteps_inv (host : Host) (a : Nat) (steps : List Step) :
    ∀ (s s1 : Sys), WF s → runSteps host a steps s = .done s1 →
      WF s1 ∧ (∀ q, (s1.heap q).name = (s.heap q).name) ∧
      ∃ new, s1.fans = s.fans ++ new ∧
        new.map Fan.record ++ s1._pending a = s._pending a ++ enqueued steps ∧
        (∀ f ∈ new, f.called = f.registered) ∧
        (∀ p ∈ targets s.channels, Stays s.heap p steps →
          p ∈ targets s1.channels ∧ ∀ f ∈ new, f.called.count p = 1) := by
  induction steps with
  | nil =>
    intro s s1 hwf hrun
    simp only [runSteps, Outcome.done.injEq] at hrun
    subst hrun
    exact ⟨hwf, fun _ => rfl, [], by simp, by simp [enqueued], by simp,
      fun p hp _ => ⟨hp, by simp⟩⟩
  | cons st rest ih =>
    intro s s2 hwf hrun
    simp only [runSteps] at hrun
    cases hst : st.run host a s with
    | raised what x =>
      rw [hst] at hrun
      exact Outcome.noConfusion hrun
    | done s1 =>
      rw [hst] at hrun
      obtain ⟨hwf1, hn1, _, new1, hf1, hq1, hc1, hs1⟩ := step_inv host a st s s1 hwf hst
      obtain ⟨hwf2, hn2, new2, hf2, hq2, hc2, hs2⟩ := ih s1 s2 hwf1 hrun
      refine ⟨hwf2, fun q => by rw [hn2, hn1], new1 ++ new2, ?_, ?_, ?_, ?_⟩
      · rw [hf2, hf1, List.append_assoc]
      · rw [List.map_append, List.append_assoc, hq2, ← List.append_assoc, hq1,
          enqueued_cons st rest, List.append_assoc]
      · intro f hf
        rcases List.mem_append.mp hf with hf | hf
        · exact hc1 f hf
        · exact hc2 f hf
      · intro p hp hstay
        obtain ⟨hp1, hk1⟩ := hs1 p hp hstay.head
        obtain ⟨hp2, hk2⟩ := hs2 p hp1 (hstay.tail hn1)
        refine ⟨hp2, ?_⟩
        intro f hf
        rcases List.mem_append.mp hf with hf | hf
        · exact hk1 f hf
        · exact hk2 f hf

theorem step_done_of_robust (host : Host) (a : Nat) (st : Step) (s : Sys) (hwf : WF s)
    (hr : AllRobust host s [st]) :
    ∃ s1, st.run host a s = .done s1 ∧ ∀ e ∈ s1.channels, (s1.heap e.2).robust host = true := by
  cases st with
  | write r => exact ⟨_, rfl, hr.1⟩
  | flush =>
    obtain ⟨new, F⟩ := flush_spec host a s
    have hd := F.completes hr.1
    refine ⟨(AsyncLogWriter.flush host a s).state, Outcome.eq_done_of_isDone _ hd, ?_⟩
    intro e he
    rw [F.channels] at he
    exact F.robust e.2 (hr.1 e he)
  | add q =>
    refine ⟨_, rfl, ?_⟩
    intro e he
    rcases (mem_mapAssign _ _ _ hwf.1 e).mp he with he | ⟨he, _⟩
    · rw [he]
      exact hr.2 q (List.mem_singleton.mpr rfl)
    · exact hr.1 e he
  | remove name =>
    refine ⟨_, rfl, ?_⟩
    intro e he
    exact hr.1 e ((mem_mapErase _ _ hwf.1 e).mp he).1

theorem runSteps_done_of_robust (host : Host) (a : Nat) (steps : List Step) :
    ∀ s : Sys, WF s → AllRobust host s steps →
      ∃ s1, runSteps host a steps s = .done s1 ∧
        ∀ e ∈ s1.channels, (s1.heap e.2).robust host = true := by
  induction steps with
  | nil => intro s _ hr; exact ⟨s, rfl, hr.1⟩
  | cons st rest ih =>
    intro s hwf hr
    have hr1 : AllRobust host s [st] :=
      ⟨hr.1, fun q hq => hr.2 q (by rw [List.mem_singleton.mp hq]; exact List.mem_cons_self _ _)⟩
    obtain ⟨s1, hst, hrob1⟩ := step_done_of_robust host a st s hwf hr1
    obtain ⟨hwf1, _, hkeep, _⟩ := step_inv host a st s s1 hwf hst
    obtain ⟨s2, hrun, hrob2⟩ := ih s1 hwf1
      ⟨hrob1, fun q hq => hkeep q (hr.2 q (List.mem_cons_of_mem _ hq))⟩
    exact ⟨s2, by simp only [runSteps, hst]; exact hrun, hrob2⟩

/-- C1. For every execution made of enqueues in the writer at `a`
(`AsyncLogWriter::write`), consumer drains (`flush`) and changes of the registry
(`Logger::add`, `Logger::remove`), from a state in which the registry invariant holds,
followed by the destructor of the writer: when every channel involved is robust (its
`write` cannot throw) the execution returns; and whenever it returns, the queue is
empty, the fan-outs that ran are exactly one for each record that was queued at the
start or enqueued by the execution, in that order, each of them called `write` on every
channel that was in the map when it ran, and a channel that stays registered throughout
has observed exactly those records, each once. -/
theorem no_loss_on_shutdown (host : Host) (a : Nat) (steps : List Step) (s : Sys)
    (hwf : WF s) :
    (AllRobust host s steps → (shutdown host a steps s).isDone = true) ∧
    (∀ s1, shutdown host a steps s = .done s1 →
      s1._pending a = [] ∧
      ∃ new, s1.fans = s.fans ++ new ∧
        new.map Fan.record = s._pending a ++ enqueued steps ∧
        (∀ f ∈ new, f.called = f.registered) ∧
        (∀ p ∈ targets s.channels, Stays s.heap p steps →
          observed p new = s._pending a ++ enqueued steps ∧
          (observed p new).length = (s._pending a).length + (enqueued steps).length)) := by
  constructor
  · intro hr
    obtain ⟨s1, hrun, hrob⟩ := runSteps_done_of_robust host a steps s hwf hr
    obtain ⟨new, F⟩ := flush_spec host a s1
    simp only [shutdown, hrun, AsyncLogWriter.destroy]
    exact F.completes hrob
  · intro s2 hsh
    simp only [shutdown] at hsh
    cases hrun : runSteps host a steps s with
    | raised what x =>
      rw [hrun] at hsh
      exact Outcome.noConfusion hsh
    | done s1 =>
      rw [hrun] at hsh
      simp only [AsyncLogWriter.destroy] at hsh
      obtain ⟨hwf1, hn1, new1, hf1, hq1, hc1, hs1⟩ := runSteps_inv host a steps s s1 hwf hrun
      obtain ⟨new2, F⟩ := flush_spec host a s1
      rw [hsh] at F
      obtain ⟨h1, h2, h3⟩ := F.whenDone rfl
      have hrec : (new1 ++ new2).map Fan.record = s._pending a ++ enqueued steps := by
        rw [List.map_append, h2, hq1]
      refine ⟨h1, new1 ++ new2, ?_, hrec, ?_, ?_⟩
      · have : s2.fans = s1.fans ++ new2 := F.fans
        rw [this, hf1, List.append_assoc]
      · intro f hf
        rcases List.mem_append.mp hf with hf | hf
        · exact hc1 f hf
        · exact h3 f hf
      · intro p hp hstay
        obtain ⟨hp1, hk1⟩ := hs1 p hp hstay
        have hobs : observed p (new1 ++ new2) = s._pending a ++ enqueued steps := by
          rw [observed_of_count_one p (new1 ++ new2), hrec]
          intro f hf
          rcases List.mem_append.mp hf with hf | hf
          · exact hk1 f hf
          · rw [h3 f hf, (F.registered f hf).1]
            exact List.count_eq_one_of_mem hwf1.nodup_targets hp1
        exact ⟨hobs, by rw [hobs, List.length_append]⟩

/-- C1 at `consoleSys`: two records are enqueued around a drain and the writer is
destroyed; the execution returns, and the console channel has observed both. -/
theorem no_loss_on_shutdown_witness :
    WF consoleSys ∧
    (shutdown plainHost 9 [.write demoRecord, .flush, .write demoRecord] consoleSys).isDone
      = true ∧
    ∀ s1, shutdown plainHost 9 [.write demoRecord, .flush, .write demoRecord] consoleSys
        = .done s1 →
      s1._pending 9 = [] ∧
      ∃ new, s1.fans = consoleSys.fans ++ new ∧
        observed 2 new = [demoRecord, demoRecord] := by
  have h := no_loss_on_shutdown plainHost 9 [.write demoRecord, .flush, .write demoRecord]
    consoleSys consoleSys_WF
  refine ⟨consoleSys_WF, h.1 ?_, ?_⟩
  · unfold AllRobust
    constructor
    · decide
    · intro q hq
      simp at hq
  · intro s1 hs1
    obtain ⟨h1, new, h2, _, _, h5⟩ := h.2 s1 hs1
    refine ⟨h1, new, h2, ?_⟩
    have hst : Stays consoleSys.heap 2 [.write demoRecord, .flush, .write demoRecord] := by
      unfold Stays
      constructor <;> intro x hx <;> simp at hx
    exact (h5 2 (by decide) hst).1

/-! ## C4: what a builder delivers -/

/-- A builder that owns no record: every operation and the destructor leave the builder
empty and the program state as it is. -/
theorem LogInfoMaker.life_none (host : Host) (ops : List MakerOp) :
    ∀ s : Sys, LogInfoMaker.life host ops ⟨none⟩ s = .done s := by
  induction ops with
  | nil => intro s; rfl
  | cons op rest ih =>
    intro s
    cases op <;>
      simp [LogInfoMaker.life, MakerOp.apply, LogInfoMaker.shl, LogInfoMaker.endl,
        LogInfoMaker.clear, LogInfoMaker.takeFrom, ih]

/-- Where `Logger::write` returns, the life of a builder calls it with the records
`delivered` names, which are at most one, and exactly one iff the builder owns its
record at the first terminal `endl` or at its destruction. -/
theorem LogInfoMaker.life_writes (host : Host) (ops : List MakerOp) (s : Sys)
    (hret : ∀ r, (Logger.write host r s).isDone = true) :
    ∀ m : LogInfoMaker,
      (LogInfoMaker.life host ops m s).isDone = true ∧
      (LogInfoMaker.life host ops m s).state.writes = s.writes ++ delivered m.logInfo ops ∧
      (delivered m.logInfo ops).length ≤ 1 ∧
      ((delivered m.logInfo ops).length = 1 ↔ ownsAtEnd m.logInfo ops = true) := by
  have hwrites : ∀ r, (Logger.write host r s).state.writes = s.writes ++ [r] := by
    intro r
    simp only [Logger.write]
    split
    · rw [fanOut_state]
    · rfl
  have hend : ∀ (r : LogInfo) (rest : List MakerOp),
      (LogInfoMaker.life host (.endl :: rest) ⟨some r⟩ s).isDone = true ∧
      (LogInfoMaker.life host (.endl :: rest) ⟨some r⟩ s).state.writes
        = s.writes ++ [{ r with message := r.message ++ "\n" }] := by
    intro r rest
    have h1 := hret { r with message := r.message ++ "\n" }
    have h2 := hwrites { r with message := r.message ++ "\n" }
    have h3 := Outcome.eq_done_of_isDone _ h1
    simp only [LogInfoMaker.life, MakerOp.apply, LogInfoMaker.endl]
    rw [h3]
    simp only [LogInfoMaker.life_none]
    exact ⟨rfl, h2⟩
  have hnil : ∀ (r : LogInfo),
      (LogInfoMaker.life host [] ⟨some r⟩ s).isDone = true ∧
      (LogInfoMaker.life host [] ⟨some r⟩ s).state.writes
        = s.writes ++ [{ r with message := r.message ++ "\n" }] := by
    intro r
    have h1 := hret { r with message := r.message ++ "\n" }
    have h2 := hwrites { r with message := r.message ++ "\n" }
    have h3 := Outcome.eq_done_of_isDone _ h1
    simp only [LogInfoMaker.life, LogInfoMaker.destroy, LogInfoMaker.endl]
    rw [h3]
    exact ⟨rfl, h2⟩
  induction ops with
  | nil =>
    intro m
    obtain ⟨_ | r⟩ := m
    · simp [LogInfoMaker.life_none, delivered, ownsAtEnd, Outcome.isDone, Outcome.state]
    · exact ⟨(hnil r).1, (hnil r).2, by simp [delivered], by simp [delivered, ownsAtEnd]⟩
  | cons op rest ih =>
    intro m
    obtain ⟨_ | r⟩ := m
    · simp [LogInfoMaker.life_none, delivered, ownsAtEnd, Outcome.isDone, Outcome.state]
    · cases op with
      | shl data =>
        have := ih ⟨some { r with message := r.message ++ data }⟩
        simpa [LogInfoMaker.life, MakerOp.apply, LogInfoMaker.shl, delivered, ownsAtEnd]
          using this
      | endl =>
        exact ⟨(hend r rest).1, (hend r rest).2, by simp [delivered],
          by simp [delivered, ownsAtEnd]⟩
      | clear =>
        simp [LogInfoMaker.life, MakerOp.apply, LogInfoMaker.clear, LogInfoMaker.life_none,
          delivered, ownsAtEnd, Outcome.isDone, Outcome.state]
      | taken =>
        simp [LogInfoMaker.life, MakerOp.apply, LogInfoMaker.takeFrom, LogInfoMaker.life_none,
          delivered, ownsAtEnd, Outcome.isDone, Outcome.state]

/-- C4, the failing input. The console channel `a` and a file channel `z` with an empty
path are registered and no writer is installed. The statement
`LogInfoMaker(LInfo, "x.cpp", "main", 7) << "hi" << endl;` calls `Logger::write` at the
`endl`; the call throws in the file channel, so `logInfo.reset()` is skipped; the
destructor of the temporary then finds the record still owned and calls
`Logger::write` a second time. `Logger::write` has been called twice for the one
builder and the console shows the record twice. -/
theorem builder_delivers_twice :
    (let o := LogInfoMaker.life plainHost [.shl "hi", .endl]
      (LogInfoMaker.create .LInfo "x.cpp" "main" 7 0) lateSys
    o.isDone = false ∧
    o.state.writes =
      [⟨.LInfo, 7, "x.cpp", "main", 0, "hi\n"⟩, ⟨.LInfo, 7, "x.cpp", "main", 0, "hi\n\n"⟩] ∧
    o.state.writes.length = 2 ∧
    o.state.fans.map Fan.called = [[1, 2], [1, 2]] ∧
    o.state.world.cout =
      "x.cpp 7\r\n \x1b[36mT [info] main hi\n\x1b[0mx.cpp 7\r\n \x1b[36mT [info] main hi\n\n\x1b[0m") := by
  decide

/-! ## C10: the end-to-end scenario -/

theorem emit_installed (host : Host) (level : LogLevel) (c : CallSite) (s : Sys) (a : Nat)
    (hw : s.writer = some a) :
    emit host level c s
      = .done (AsyncLogWriter.write a (c.record level)
          { s with writes := s.writes ++ [c.record level] }) := by
  simp [emit, LogInfoMaker.life, MakerOp.apply, LogInfoMaker.shl, LogInfoMaker.create,
    LogInfoMaker.destroy, LogInfoMaker.endl, Logger.write, hw, CallSite.record]

/-- C10. A file channel named `f` with threshold info, a closed stream and a path that
opens is registered, and an `AsyncLogWriter` is installed. One record is emitted at
debug level and one at error level (the consumer may drain after each), and the writer
is destroyed. The scenario returns with the queue empty; both records were drained; the
file then holds what it held before (nothing, for a file that was missing or empty)
followed by the rendering of the error record and nothing else; no other file and no
console output changed. The rendering is `file line CR LF`, then a blank, the time,
` [error] `, the function, a blank, the message and the line end; it contains the level
tag `error` and the line number of the call site. -/
theorem end_to_end (host : Host) (a p : Nat) (drain1 drain2 : Bool) (c1 c2 : CallSite)
    (init : Sys) (tf path : String)
    (hch : init.channels = []) (hq : init._pending a = [])
    (hp : init.heap p = .file ⟨⟨"f", .LInfo, tf⟩, none, path⟩)
    (hpath : path ≠ "") (hopen : host.canOpen path = true) :
    (let text := (c2.record .LError).format host (some tf) false
    ∃ s, scenario host a p drain1 drain2 c1 c2 init = .done s ∧
      s._pending a = [] ∧
      s.world.files path = some ((init.world.files path).getD "" ++ text) ∧
      (∀ other, other ≠ path → s.world.files other = init.world.files other) ∧
      s.world.cout = init.world.cout ∧
      s.fans.map Fan.record = init.fans.map Fan.record ++ [c1.record .LDebug, c2.record .LError] ∧
      text = c2.file ++ " " ++ toString c2.line ++ "\r\n " ++ LogInfo.print host c2.now tf
        ++ " [error] " ++ c2.function ++ " " ++ c2.text ++ "\n" ∧
      "error".toList <:+: text.toList ∧ (toString c2.line).toList <:+: text.toList) := by
  intro text
  have hcont := LogInfo.format_contains host (c2.record .LError) (some tf) false
  have hfile : (init.world.openAppend path).files path
      = some ((init.world.files path).getD "") := by
    simp only [World.openAppend]
    cases hf : init.world.files path <;> simp [hf]
  have hother : ∀ other, other ≠ path →
      (init.world.openAppend path).files other = init.world.files other := by
    intro other ho
    simp only [World.openAppend]
    cases hf : init.world.files path <;> simp [hf, Function.update_noteq ho]
  have hcout : (init.world.openAppend path).cout = init.world.cout := by
    simp only [World.openAppend]
    cases hf : init.world.files path <;> rfl
  have htext : text = LogInfo.format host
      { level := .LError, line := c2.line, file := c2.file, function := c2.function,
        ts := c2.now, message := c2.text ++ "\n" } (some tf) false := by
    simp [text, CallSite.record]
  have hshape : text = c2.file ++ " " ++ toString c2.line ++ "\r\n " ++ LogInfo.print host c2.now tf
        ++ " [error] " ++ c2.function ++ " " ++ c2.text ++ "\n" := by
    rw [htext]
    simp [LogInfo.format, LogLevelStr, String.append_assoc]
  have herr : "error".toList <:+: text.toList := hcont.1
  have hline : (toString c2.line).toList <:+: text.toList := hcont.2
  cases drain1 <;> cases drain2 <;>
    simp [scenario, Outcome.andThen, emit_installed, Logger.setWriter, Logger.add, hch, hp, hq,
      mapAssign, Channel.name, AsyncLogWriter.write, AsyncLogWriter.destroy, AsyncLogWriter.flush,
      AsyncLogWriter.flushLoop, AsyncLogWriter.realWrite, fanOut, fanLoop, Channel.write,
      FileChannel.write, FileChannel.open, CallSite.record, LogLevel.toNat, hpath, hopen,
      Outcome.state, targets, World.streamWrite, hfile, hcout, ← htext] <;>
    refine ⟨?_, hshape, herr, hline⟩ <;>
    intro other ho <;>
    rw [Function.update_noteq ho] <;>
    exact hother other ho

/-- C10 at `scenarioSys`, without a drain before the shutdown: the file `app.log`,
missing at the start, holds the rendering of the error record and nothing else. -/
theorem end_to_end_witness :
    scenarioSys.channels = [] ∧ scenarioSys._pending 9 = [] ∧ scenarioSys.heap 5 = fileF ∧
    ("app.log" : String) ≠ "" ∧ plainHost.canOpen "app.log" = true ∧
    ∃ s, scenario plainHost 9 5 false false debugSite errorSite scenarioSys = .done s ∧
      s._pending 9 = [] ∧
      s.world.files "app.log" = some "main.cpp 42\r\n T [error] run boom\n" := by
  refine ⟨rfl, rfl, rfl, by decide, rfl, ?_⟩
  obtain ⟨s, h1, h2, h3, _⟩ :=
    end_to_end plainHost 9 5 false false debugSite errorSite scenarioSys "%T" "app.log"
      rfl rfl rfl (by decide) rfl
  refine ⟨s, h1, h2, ?_⟩
  rw [h3]
  decide

end ZL.Util
